import Mathlib

/-!
Verification development for the Case_12 Windows filesystem scanner.

The repository is a tree scanner and aggregator: `navigation.list_directory`
reads one directory level, `analysis.count_files` / `count_bytes` /
`analyze_windows_file_types` fold subtree statistics, `search.find_files_windows`
and `find_large_files_windows` perform recursive searches, and
`utill_rec.validate_windows_path_recursive`, `resolve_long_paths_recursive` and
`collect_windows_metadata_recursive` implement path validation, long-path
normalization and the full metadata scan.

The filesystem is modelled as a finite table from directory-path strings to
directory reads.  A read either succeeds with a list of entries (name plus the
metadata that per-entry OS calls would report) or fails in one of the ways the
Python code distinguishes: `PermissionError`, `FileNotFoundError`, another
`OSError`, or a non-OS exception (the catch-all `except Exception` branch of
`list_directory`).  A path absent from the table behaves like
`FileNotFoundError`.

Recursive traversals in the source are keyed by path strings built with
`os.path.join`; every recursive step moves to a strictly longer path, and a
traversal can only continue from a path that is a key of the table, so the
recursion depth is bounded by the number of keys plus one.  Each traversal is
therefore defined with an auxiliary fuel argument, and its wrapper passes
`fs.length + 1`, which the bound above shows is always sufficient; the
fuel-zero branches are unreachable from the wrappers.

Python string operations are modelled over `String.data` (`str.lower` as
ASCII lowercasing per character, `str.startswith` as list prefix,
`str.split`/`str.replace` as explicit list recursions); Windows file names
contain no newlines, and the scanner's comparisons are code-point based, so
these models are exact on the code's input domain.
-/

/-- Classification of a directory entry by the `os.path.isfile` /
`os.path.isdir` checks on its full path (`other` covers paths for which both
return False). -/
inductive EKind where
  | file
  | dir
  | other
deriving DecidableEq, Repr

/-- Metadata the per-entry OS calls report for one directory entry:
`isLink` is `os.path.islink`, `kind` the isfile/isdir classification,
`stat` is `some (st_size, formatted st_mtime)` when `os.stat`/`os.path.getsize`
succeed and `none` when they raise `OSError`, and `attrs` is
`st_file_attributes` when readable (`none` models `AttributeError` on platforms
without it, or a failing `os.stat`). -/
structure EntryMeta where
  isLink : Bool
  kind : EKind
  stat : Option (Nat × String)
  attrs : Option Nat
deriving DecidableEq, Repr

/-- Outcome of one `os.listdir` call. -/
inductive DirRead where
  | ok (entries : List (String × EntryMeta))
  | permErr
  | notFoundErr
  | osErr
  | excErr
deriving DecidableEq, Repr

/-- A filesystem: a finite table from directory paths to directory reads. -/
abbrev Fs := List (String × DirRead)

/-- Look up a path in the filesystem table; an absent path cannot be listed
(`FileNotFoundError`). -/
def fsRead (fs : Fs) (p : String) : DirRead :=
  match fs with
  | [] => DirRead.notFoundErr
  | (k, d) :: rest => if k = p then d else fsRead rest p

/-- Models `os.path.join(p, name)` on Windows for a normal directory path. -/
def joinP (p n : String) : String := p ++ "\\" ++ n

/-- Models Python `str.lower` (ASCII case folding, exact for the scanner's
inputs). -/
def pyLower (s : String) : String := ⟨s.data.map Char.toLower⟩

/-- Models Python `str.startswith`. -/
def pyStartsWith (s pre : String) : Bool := pre.data.isPrefixOf s.data

/-- Index of the last '.' in a character list, if any. -/
def lastDotIdx : List Char → Option Nat
  | [] => none
  | c :: rest =>
    match lastDotIdx rest with
    | some i => some (i + 1)
    | none => if c = '.' then some 0 else none

/-- Models `os.path.splitext` on a bare file name (no separators): the
extension starts at the last dot, provided some character strictly before that
dot is not itself a dot (so ".bashrc" has no extension). -/
def splitext (s : String) : String × String :=
  match lastDotIdx s.data with
  | none => (s, "")
  | some i =>
    if (s.data.take i).any (fun c => c ≠ '.') then
      (⟨s.data.take i⟩, ⟨s.data.drop i⟩)
    else (s, "")

/-- Stable insertion step for `sorted(entries, key=str.lower)`: an element is
placed before the first element whose key is not smaller, so equal keys keep
their original relative order. -/
def insByName (x : String × EntryMeta) : List (String × EntryMeta) → List (String × EntryMeta)
  | [] => [x]
  | y :: ys => if pyLower y.1 < pyLower x.1 then y :: insByName x ys else x :: y :: ys

/-- Models `sorted(entries, key=str.lower)` from `list_directory` (a stable
sort ascending by the lowercased name). -/
def sortByName : List (String × EntryMeta) → List (String × EntryMeta)
  | [] => []
  | x :: xs => insByName x (sortByName xs)

/-- Models `utils.is_hidden_windows_file` applied to the entry's full path:
the hidden attribute bit 0x02 when `st_file_attributes` is readable, otherwise
the fallback `Path(path).name.startswith('.')` (and `Path(join(p, name)).name`
is `name` for names coming from `os.listdir`). -/
def is_hidden_windows_file (name : String) (m : EntryMeta) : Bool :=
  match m.attrs with
  | some a => decide (a &&& 2 ≠ 0)
  | none => pyStartsWith name "."

/-- One entry of `navigation.list_directory`'s result list (the Python dict
with keys name/type/size/modified/hidden). -/
structure LDItem where
  name : String
  typ : String
  size : Nat
  modified : String
  hidden : Bool
deriving DecidableEq, Repr

/-- Builds the metadata dict `list_directory` constructs for one entry:
`type` is "dir" iff `os.path.isdir` holds, `size` is `st_size` for files and 0
for directories, a failing `os.stat` downgrades size to 0 and the modification
time to "N/A", and `hidden` comes from `is_hidden_windows_file`. -/
def entryItem (name : String) (m : EntryMeta) : LDItem :=
  match m.stat with
  | some sm =>
    { name := name
      typ := if m.kind = EKind.dir then "dir" else "file"
      size := if m.kind = EKind.dir then 0 else sm.1
      modified := sm.2
      hidden := is_hidden_windows_file name m }
  | none =>
    { name := name
      typ := if m.kind = EKind.dir then "dir" else "file"
      size := 0
      modified := "N/A"
      hidden := is_hidden_windows_file name m }

/-- Models `utils.safe_windows_listdir`: `PermissionError`, `FileNotFoundError`
and `OSError` are caught and turned into an empty name list; any other
exception propagates (the `Except.error` case). -/
def safe_windows_listdir (fs : Fs) (p : String) : Except Unit (List (String × EntryMeta)) :=
  match fsRead fs p with
  | DirRead.ok entries => Except.ok entries
  | DirRead.permErr => Except.ok []
  | DirRead.notFoundErr => Except.ok []
  | DirRead.osErr => Except.ok []
  | DirRead.excErr => Except.error ()

/-- The `(success, entries)` pair of `navigation.list_directory` before the
per-entry dicts are built: the `except Exception` branch yields
`(False, [])`, otherwise the names are sorted case-insensitively. -/
def listDirRaw (fs : Fs) (p : String) : Bool × List (String × EntryMeta) :=
  match safe_windows_listdir fs p with
  | Except.error _ => (false, [])
  | Except.ok entries => (true, sortByName entries)

/-- Models `navigation.list_directory`: the raw listing with each entry
projected to its metadata dict. -/
def list_directory (fs : Fs) (p : String) : Bool × List LDItem :=
  ((listDirRaw fs p).1, (listDirRaw fs p).2.map (fun e => entryItem e.1 e.2))

/-- One step of the `count_files` item loop: skip symbolic links, count a
file, and add a subdirectory's recursive count only when the recursive call
reports success. -/
def cfStep (recur : String → Bool × Nat) (p : String) (total : Nat)
    (e : String × EntryMeta) : Nat :=
  total +
    (if e.2.isLink then 0
     else if (entryItem e.1 e.2).typ = "file" then 1
     else if (entryItem e.1 e.2).typ = "dir" then
       (match recur (joinP p e.1) with
        | (true, c) => c
        | (false, _) => 0)
     else 0)

/-- Fuel-indexed body of `analysis.count_files`.  The fuel-zero branch is
unreachable from the wrapper (see the module comment). -/
def cfAux (fs : Fs) : Nat → String → Bool × Nat
  | 0, _ => (true, 0)
  | fuel + 1, p =>
    match listDirRaw fs p with
    | (false, _) => (false, 0)
    | (true, items) => (true, items.foldl (cfStep (cfAux fs fuel) p) 0)

/-- Models `analysis.count_files`. -/
def count_files (fs : Fs) (p : String) : Bool × Nat :=
  cfAux fs (fs.length + 1) p

/-- One step of the `count_bytes` item loop: like `cfStep` but accumulating
the `size` field of the entry dicts. -/
def cbStep (recur : String → Bool × Nat) (p : String) (total : Nat)
    (e : String × EntryMeta) : Nat :=
  total +
    (if e.2.isLink then 0
     else if (entryItem e.1 e.2).typ = "file" then (entryItem e.1 e.2).size
     else if (entryItem e.1 e.2).typ = "dir" then
       (match recur (joinP p e.1) with
        | (true, c) => c
        | (false, _) => 0)
     else 0)

/-- Fuel-indexed body of `analysis.count_bytes`. -/
def cbAux (fs : Fs) : Nat → String → Bool × Nat
  | 0, _ => (true, 0)
  | fuel + 1, p =>
    match listDirRaw fs p with
    | (false, _) => (false, 0)
    | (true, items) => (true, items.foldl (cbStep (cbAux fs fuel) p) 0)

/-- Models `analysis.count_bytes`. -/
def count_bytes (fs : Fs) (p : String) : Bool × Nat :=
  cbAux fs (fs.length + 1) p

/-- Extension histogram as an insertion-ordered association list
`extension ↦ (count, bytes)`, modelling the Python `defaultdict`. -/
abbrev Hist := List (String × Nat × Nat)

/-- Add `(c, b)` to a key's counters, creating the key at the end of the list
on first access (exactly the `defaultdict` insertion-order behaviour). -/
def hadd : Hist → String → Nat → Nat → Hist
  | [], k, c, b => [(k, c, b)]
  | (k0, c0, b0) :: t, k, c, b =>
    if k0 = k then (k0, c0 + c, b0 + b) :: t else (k0, c0, b0) :: hadd t k c b

/-- Fold one histogram into another, key by key in iteration order (the
`for ext, data in sub.items()` merge loop). -/
def hmergeList (h : Hist) (ts : Hist) : Hist :=
  ts.foldl (fun a e => hadd a e.1 e.2.1 e.2.2) h

/-- Total count stored under a key (robust to duplicate keys). -/
def hcount (h : Hist) (k : String) : Nat :=
  (h.map (fun e => if e.1 = k then e.2.1 else 0)).sum

/-- Total bytes stored under a key. -/
def hbytes (h : Hist) (k : String) : Nat :=
  (h.map (fun e => if e.1 = k then e.2.2 else 0)).sum

/-- Sum of all per-extension counts of a histogram. -/
def sumCounts (h : Hist) : Nat := (h.map (fun e => e.2.1)).sum

/-- Sum of all per-extension byte totals of a histogram. -/
def sumBytes (h : Hist) : Nat := (h.map (fun e => e.2.2)).sum

/-- One step of the `analyze_windows_file_types` item loop: files are keyed
by `os.path.splitext(name)[1].lower()` (the empty string when there is no
extension) and a subdirectory's histogram is merged only when the recursive
call reports success. -/
def awftStep (recur : String → Bool × Hist) (p : String) (stats : Hist)
    (e : String × EntryMeta) : Hist :=
  if e.2.isLink then stats
  else if (entryItem e.1 e.2).typ = "file" then
    hadd stats (pyLower (splitext e.1).2) 1 (entryItem e.1 e.2).size
  else if (entryItem e.1 e.2).typ = "dir" then
    (match recur (joinP p e.1) with
     | (true, sub) => hmergeList stats sub
     | (false, _) => stats)
  else stats

/-- Fuel-indexed body of `analysis.analyze_windows_file_types`. -/
def awftAux (fs : Fs) : Nat → String → Bool × Hist
  | 0, _ => (true, [])
  | fuel + 1, p =>
    match listDirRaw fs p with
    | (false, _) => (false, [])
    | (true, items) => (true, items.foldl (awftStep (awftAux fs fuel) p) [])

/-- Models `analysis.analyze_windows_file_types`. -/
def analyze_windows_file_types (fs : Fs) (p : String) : Bool × Hist :=
  awftAux fs (fs.length + 1) p

/-- The `.*` loop of the constructed regex: try the continuation at every
suffix of the string. -/
def wmStar (f : List Char → Bool) : List Char → Bool
  | [] => f []
  | c :: ss => f (c :: ss) || wmStar f ss

/-- Semantics of the regular expression `search.find_files_windows` builds
from its pattern (`re.escape` with `\*` rewritten to `.*` and `\?` to `.`,
anchored by `^`/`$`): `*` matches zero or more characters, `?` exactly one,
every other pattern character only itself.  Windows file names contain no
newline, so the regex quirks around `\n` cannot arise. -/
def wildcardMatch : List Char → List Char → Bool
  | [], [] => true
  | [], _ :: _ => false
  | '*' :: ps, s => wmStar (wildcardMatch ps) s
  | '?' :: _, [] => false
  | '?' :: ps, _ :: ss => wildcardMatch ps ss
  | _ :: _, [] => false
  | c :: ps, d :: ss => c = d && wildcardMatch ps ss

/-- Models `re.match` of the constructed pattern against a file name: the
`(?i)` flag prepended when `case_sensitive` is false is modelled by folding
both strings to lower case. -/
def pyMatch (pattern name : String) (case_sensitive : Bool) : Bool :=
  if case_sensitive then wildcardMatch pattern.data name.data
  else wildcardMatch (pyLower pattern).data (pyLower name).data

/-- Fuel-indexed body of `search.find_files_windows`'s `search_recursive`:
file-typed entries whose name matches are appended, directories are recursed
into, and a failed listing contributes nothing. -/
def ffwStep (recur : String → List String) (pattern : String) (case_sensitive : Bool)
    (p : String) (res : List String) (e : String × EntryMeta) : List String :=
  if (entryItem e.1 e.2).typ = "file" then
    (if pyMatch pattern e.1 case_sensitive then res ++ [joinP p e.1] else res)
  else if (entryItem e.1 e.2).typ = "dir" then
    res ++ recur (joinP p e.1)
  else res

/-- Fuel-indexed recursion of `find_files_windows`. -/
def ffwAux (fs : Fs) (pattern : String) (case_sensitive : Bool) : Nat → String → List String
  | 0, _ => []
  | fuel + 1, p =>
    match listDirRaw fs p with
    | (false, _) => []
    | (true, items) =>
      items.foldl (ffwStep (ffwAux fs pattern case_sensitive fuel) pattern case_sensitive p) []

/-- Models `search.find_files_windows` (case-insensitive by default). -/
def find_files_windows (fs : Fs) (pattern : String) (p : String)
    (case_sensitive : Bool := false) : List String :=
  ffwAux fs pattern case_sensitive (fs.length + 1) p

/-- Enumeration, in discovery order, of the (full path, entry dict) pairs of
all file-typed entries the searchers visit; it follows exactly the shared
traversal shape of the search functions and is used to state what "all files
of the tree" means. -/
def afiStep (recur : String → List (String × LDItem)) (p : String)
    (res : List (String × LDItem)) (e : String × EntryMeta) : List (String × LDItem) :=
  if (entryItem e.1 e.2).typ = "file" then
    res ++ [(joinP p e.1, entryItem e.1 e.2)]
  else if (entryItem e.1 e.2).typ = "dir" then
    res ++ recur (joinP p e.1)
  else res

/-- Fuel-indexed recursion of the file enumeration. -/
def afiAux (fs : Fs) : Nat → String → List (String × LDItem)
  | 0, _ => []
  | fuel + 1, p =>
    match listDirRaw fs p with
    | (false, _) => []
    | (true, items) => items.foldl (afiStep (afiAux fs fuel) p) []

/-- All file entries of the tree below a path, in discovery order. -/
def allFileItems (fs : Fs) (p : String) : List (String × LDItem) :=
  afiAux fs (fs.length + 1) p

/-- One result record of `search.find_large_files_windows` (the Python dict
with keys path/size_mb/size_bytes/type/modified). -/
structure LargeRec where
  path : String
  size_mb : Rat
  size_bytes : Nat
  typ : String
  modified : String
deriving DecidableEq, Repr

/-- Builds the record `find_large_files_windows` appends for a matching file
entry. -/
def mkLargeRec (q : String × LDItem) : LargeRec :=
  { path := q.1
    size_mb := (q.2.size : Rat) / (1024 * 1024)
    size_bytes := q.2.size
    typ := pyLower (splitext q.2.name).2
    modified := q.2.modified }

/-- Fuel-indexed body of `find_large_files_windows`'s `_search_recursive`:
file-typed entries whose size reaches `min_size_mb * 1024 * 1024` bytes are
recorded (size threshold inclusive), directories are recursed into. -/
def flwStep (recur : String → List LargeRec) (min_size_mb : Rat) (p : String)
    (res : List LargeRec) (e : String × EntryMeta) : List LargeRec :=
  if (entryItem e.1 e.2).typ = "file" then
    (if ((entryItem e.1 e.2).size : Rat) ≥ min_size_mb * (1024 * 1024) then
      res ++ [mkLargeRec (joinP p e.1, entryItem e.1 e.2)]
    else res)
  else if (entryItem e.1 e.2).typ = "dir" then
    res ++ recur (joinP p e.1)
  else res

/-- Fuel-indexed recursion of `find_large_files_windows`. -/
def flwAux (fs : Fs) (min_size_mb : Rat) : Nat → String → List LargeRec
  | 0, _ => []
  | fuel + 1, p =>
    match listDirRaw fs p with
    | (false, _) => []
    | (true, items) => items.foldl (flwStep (flwAux fs min_size_mb fuel) min_size_mb p) []

/-- Stable descending insertion by `size_bytes`: an element is placed before
the first element with a strictly smaller key, so equal keys keep discovery
order — the behaviour of Python's stable `list.sort(key=..., reverse=True)`. -/
def insDesc (x : LargeRec) : List LargeRec → List LargeRec
  | [] => [x]
  | y :: ys => if x.size_bytes ≥ y.size_bytes then x :: y :: ys else y :: insDesc x ys

/-- Models `results.sort(key=lambda x: x['size_bytes'], reverse=True)`. -/
def pySortDesc : List LargeRec → List LargeRec
  | [] => []
  | x :: xs => insDesc x (pySortDesc xs)

/-- Models `search.find_large_files_windows`: the traversal's records sorted
descending by `size_bytes`. -/
def find_large_files_windows (fs : Fs) (min_size_mb : Rat) (p : String) : List LargeRec :=
  pySortDesc (flwAux fs min_size_mb (fs.length + 1) p)

/-- Specification-side wildcard matching relation, written from the spec's
words: `*` matches zero or more characters, `?` matches exactly one character,
every other pattern character matches itself literally, and the whole pattern
must cover the whole name (anchored). -/
inductive PatternSpec : List Char → List Char → Prop where
  | nil : PatternSpec [] []
  | lit {ps ss : List Char} (c : Char) (h1 : c ≠ '*') (h2 : c ≠ '?') :
      PatternSpec ps ss → PatternSpec (c :: ps) (c :: ss)
  | one {ps ss : List Char} (c : Char) :
      PatternSpec ps ss → PatternSpec ('?' :: ps) (c :: ss)
  | starSkip {ps ss : List Char} :
      PatternSpec ps ss → PatternSpec ('*' :: ps) ss
  | starEat {ps ss : List Char} (c : Char) :
      PatternSpec ('*' :: ps) ss → PatternSpec ('*' :: ps) (c :: ss)

/-- Models `path_str.replace('://', '')`: delete the non-overlapping
occurrences of "://" left to right. -/
def removeSub : List Char → List Char
  | ':' :: '/' :: '/' :: rest => removeSub rest
  | c :: rest => c :: removeSub rest
  | [] => []

/-- Models Python `str.split(sep)` for a one-character separator. -/
def splitOnChar (c : Char) : List Char → List (List Char)
  | [] => [[]]
  | x :: xs =>
    match splitOnChar c xs with
    | [] => [[]]
    | h :: t => if x = c then [] :: h :: t else (x :: h) :: t

/-- The problem strings the drive-designator check of
`validate_windows_path_recursive` appends: at most one ':' separator, and a
present designator must be a single alphabetic character. -/
def colonProbs (pathS : String) : List String :=
  if pathS.data.contains ':' then
    match splitOnChar ':' pathS.data with
    | [] => []
    | p0 :: rest =>
      if (p0 :: rest).length ≠ 2 then
        ["Incorrect usage of \":\" in path: " ++ pathS]
      else if p0.length ≠ 1 ∨ ¬ (p0 ≠ [] ∧ p0.all Char.isAlpha) then
        ["Invalid drive letter \"" ++ String.mk p0 ++ "\" in path: " ++ pathS]
      else []
  else []

/-- The problem strings of the forbidden-character rule: one entry per
forbidden character present in the path, in the fixed scan order. -/
def forbiddenProbs (pathS : String) : List String :=
  (['*', '?', '"', '>', '<', '|'].filter (fun c => pathS.data.contains c)).map
    (fun c => "Forbidden character \"" ++ String.singleton c ++
      "\" in path segment: " ++ pathS)

/-- The problem string of the separator rule: '/' is only flagged when no
backslash remains after deleting "://" occurrences. -/
def slashProbs (pathS : String) : List String :=
  if pathS.data.contains '/' ∧ ¬ (removeSub pathS.data).contains '\\' then
    ["Use \\\\ instead of / in path: " ++ pathS]
  else []

/-- The problem string of the path-length rule (long-path prefix exempt). -/
def lengthProbs (pathS : String) : List String :=
  if pathS.length > 260 ∧ ¬ pyStartsWith pathS "\\\\?\\" then
    ["Path exceeds 260 characters: " ++ toString pathS.length ++ " chars"]
  else []

/-- The problem string of the existence rule, checked only at depth 0. -/
def existsProbs (pexists : String → Bool) (pathS : String) (depth : Nat) : List String :=
  if depth = 0 ∧ ¬ pexists pathS then ["Path does not exist: " ++ pathS] else []

/-- Fuel-indexed body of `utill_rec.validate_windows_path_recursive`.  The
external collaborators `os.path.exists` and `pathlib.Path(...).parent` are
passed as functions.  The fuel equals `51 - depth`, so fuel zero coincides
exactly with the `depth > 50` guard of the code. -/
def vAux (pexists : String → Bool) (parentOf : String → String) :
    Nat → String → Nat → Bool × List String
  | 0, _, _ => (false, ["Maximum recursion depth exceeded (50)"])
  | gas + 1, pathS, depth =>
    if depth > 50 then (false, ["Maximum recursion depth exceeded (50)"])
    else
      let probs4 := forbiddenProbs pathS ++ slashProbs pathS ++ colonProbs pathS ++
        lengthProbs pathS ++ existsProbs pexists pathS depth
      let par := parentOf pathS
      let probs5 :=
        if par ≠ pathS ∧ par ∉ (["", ".", "/", "\\"] : List String) then
          (if ¬ (pyStartsWith pathS "\\\\" = true ∧ pathS.data.count '\\' ≤ 3) then
            probs4 ++ (vAux pexists parentOf gas par (depth + 1)).2
          else probs4)
        else probs4
      (probs5.isEmpty, probs5)

/-- Models `utill_rec.validate_windows_path_recursive`, parametric in the
external `os.path.exists` and `Path(...).parent` collaborators. -/
def validate_windows_path_recursive (pexists : String → Bool) (parentOf : String → String)
    (pathS : String) (depth : Nat := 0) : Bool × List String :=
  vAux pexists parentOf (51 - depth) pathS depth

/-- Models `utill_rec.resolve_long_paths_recursive`, parametric in the external
`os.path.abspath` and `os.path.normpath` collaborators (the Python `prefix`
keyword argument is named `pfx` here because `prefix` is reserved in Lean). -/
def resolve_long_paths_recursive (abspath normpath : String → String) (pathS : String)
    (pfx : String := "\\\\?\\") : String :=
  if pyStartsWith pathS pfx then pathS
  else if pyStartsWith pathS "\\\\" then
    (if pathS.length > 260 ∧ ¬ pyStartsWith pathS "\\\\?\\UNC\\" then
      "\\\\?\\UNC\\" ++ (⟨pathS.data.drop 2⟩ : String)
    else pathS)
  else if (abspath pathS).length > 260 then
    (if ¬ pyStartsWith pathS pfx then pfx ++ abspath pathS else normpath pathS)
  else normpath pathS

/-- One node of the nested result dictionary of
`collect_windows_metadata_recursive`; `attributes` is the
(hidden, system, readonly) counter triple. -/
structure RNode where
  path : String
  depth : Nat
  files : Nat
  dirs : Nat
  size : Nat
  types : Hist
  attributes : Nat × Nat × Nat
  children : List RNode
deriving Repr

/-- The extension key the recursive collector uses:
`extension.lower() if extension else 'no_extension'`. -/
def extKeyRec (name : String) : String :=
  if (splitext name).2 ≠ "" then pyLower (splitext name).2 else "no_extension"

/-- Add one file's attribute bits to a (hidden, system, readonly) triple
(bits 0x02, 0x04, 0x01 tested independently). -/
def attrAdd (t : Nat × Nat × Nat) (a : Nat) : Nat × Nat × Nat :=
  (t.1 + (if a &&& 2 ≠ 0 then 1 else 0),
   t.2.1 + (if a &&& 4 ≠ 0 then 1 else 0),
   t.2.2 + (if a &&& 1 ≠ 0 then 1 else 0))

/-- Pointwise sum of two (hidden, system, readonly) triples. -/
def attrMerge (t u : Nat × Nat × Nat) : Nat × Nat × Nat :=
  (t.1 + u.1, t.2.1 + u.2.1, t.2.2 + u.2.2)

/-- The zero-valued result dictionary for a path at a depth. -/
def zeroNode (pathS : String) (depth : Nat) : RNode :=
  { path := pathS, depth := depth, files := 0, dirs := 0, size := 0,
    types := [], attributes := (0, 0, 0), children := [] }

/-- The item loop of `_collect_recursive`: symbolic links are skipped
entirely; a file bumps the file count, and when its size is readable it
contributes size, histogram and (when readable) attribute bits; a
subdirectory bumps the dir count and, below the depth limit, is scanned by
`recur` — a `none` child (depth or visited-set exclusion) contributes nothing,
a returned child is appended to `children` and its totals are folded in.  The
visited set is threaded through exactly as the mutated Python set. -/
def colItems (recur : String → List String → Except Unit (Option RNode × List String))
    (maxd : Nat) (base : String) (depth : Nat) :
    List (String × EntryMeta) → RNode → List String → Except Unit (RNode × List String)
  | [], acc, vis => Except.ok (acc, vis)
  | (name, m) :: rest, acc, vis =>
    if m.isLink then colItems recur maxd base depth rest acc vis
    else if m.kind = EKind.file then
      (match m.stat with
       | none => colItems recur maxd base depth rest { acc with files := acc.files + 1 } vis
       | some sm =>
         colItems recur maxd base depth rest
           (match m.attrs with
            | none =>
              { acc with
                files := acc.files + 1
                size := acc.size + sm.1
                types := hadd acc.types (extKeyRec name) 1 sm.1 }
            | some a =>
              { acc with
                files := acc.files + 1
                size := acc.size + sm.1
                types := hadd acc.types (extKeyRec name) 1 sm.1
                attributes := attrAdd acc.attributes a }) vis)
    else if m.kind = EKind.dir then
      (if depth < maxd then
        match recur (joinP base name) vis with
        | Except.error e => Except.error e
        | Except.ok (none, vis2) =>
          colItems recur maxd base depth rest { acc with dirs := acc.dirs + 1 } vis2
        | Except.ok (some c, vis2) =>
          colItems recur maxd base depth rest
            { acc with
              files := acc.files + c.files
              dirs := acc.dirs + 1 + c.dirs
              size := acc.size + c.size
              types := hmergeList acc.types c.types
              attributes := attrMerge acc.attributes c.attributes
              children := acc.children ++ [c] } vis2
      else colItems recur maxd base depth rest { acc with dirs := acc.dirs + 1 } vis)
    else colItems recur maxd base depth rest acc vis

/-- The recursive scanner `_collect_recursive`.  The gas argument equals
`maxd + 1 - depth`, so gas zero coincides with the `current_depth > max_depth`
guard; a path already in the visited set yields `None` without reading it.
`os.listdir` failures (`PermissionError`, `OSError`, `FileNotFoundError`) are
contained and leave the zero-valued node; a non-OS exception is not caught by
that clause and propagates (`Except.error`). -/
def colRec (fs : Fs) (maxd : Nat) : Nat → String → Nat → List String →
    Except Unit (Option RNode × List String)
  | 0, _, _, vis => Except.ok (none, vis)
  | gas + 1, pathS, depth, vis =>
    if depth > maxd ∨ pathS ∈ vis then Except.ok (none, vis)
    else
      match fsRead fs pathS with
      | DirRead.ok items =>
        (match colItems (fun p v => colRec fs maxd gas p (depth + 1) v) maxd pathS depth
            items (zeroNode pathS depth) (pathS :: vis) with
         | Except.error e => Except.error e
         | Except.ok (n, v) => Except.ok (some n, v))
      | DirRead.excErr => Except.error ()
      | _ => Except.ok (some (zeroNode pathS depth), pathS :: vis)

/-- Models `utill_rec.collect_windows_metadata_recursive`: the scan starts at
depth 0 with an empty visited set; a `None` root (unreachable for the start
parameters) falls back to the zero-valued dictionary, as in the source. -/
def collect_windows_metadata_recursive (fs : Fs) (pathS : String) (maxd : Nat := 10) :
    Except Unit RNode :=
  match colRec fs maxd (maxd + 1) pathS 0 [] with
  | Except.error e => Except.error e
  | Except.ok (none, _) => Except.ok (zeroNode pathS 0)
  | Except.ok (some n, _) => Except.ok n

/-- The same filesystem with every symbolic-link entry removed from every
listing. -/
def dropLinksFs (fs : Fs) : Fs :=
  fs.map (fun e =>
    (e.1,
      match e.2 with
      | DirRead.ok items => DirRead.ok (items.filter (fun it => !it.2.isLink))
      | d => d))

/-- Immediate-file count of a listing as the collector sees it: non-link,
file-typed entries. -/
def itemsFiles : List (String × EntryMeta) → Nat
  | [] => 0
  | (_, m) :: rest =>
    (if m.isLink then 0 else if m.kind = EKind.file then 1 else 0) + itemsFiles rest

/-- Immediate byte total of a listing: sizes of non-link files whose size was
readable. -/
def itemsSize : List (String × EntryMeta) → Nat
  | [] => 0
  | (_, m) :: rest =>
    (if m.isLink then 0
     else if m.kind = EKind.file then
       (match m.stat with
        | some sm => sm.1
        | none => 0)
     else 0) + itemsSize rest

/-- Immediate histogram count of a listing under one extension key. -/
def itemsTypeCount (ext : String) : List (String × EntryMeta) → Nat
  | [] => 0
  | (name, m) :: rest =>
    (if m.isLink then 0
     else if m.kind = EKind.file then
       (match m.stat with
        | some _ => if extKeyRec name = ext then 1 else 0
        | none => 0)
     else 0) + itemsTypeCount ext rest

/-- Immediate histogram bytes of a listing under one extension key. -/
def itemsTypeBytes (ext : String) : List (String × EntryMeta) → Nat
  | [] => 0
  | (name, m) :: rest =>
    (if m.isLink then 0
     else if m.kind = EKind.file then
       (match m.stat with
        | some sm => if extKeyRec name = ext then sm.1 else 0
        | none => 0)
     else 0) + itemsTypeBytes ext rest

/-- Immediate count of files with a given attribute bit set (counted only when
both the size and the attribute bits were readable, as in the source). -/
def itemsAttrBit (bit : Nat) : List (String × EntryMeta) → Nat
  | [] => 0
  | (_, m) :: rest =>
    (if m.isLink then 0
     else if m.kind = EKind.file then
       (match m.stat with
        | some _ =>
          (match m.attrs with
           | some a => if a &&& bit ≠ 0 then 1 else 0
           | none => 0)
        | none => 0)
     else 0) + itemsAttrBit bit rest

/-- A listing-level quantity lifted to a path: zero when the path's listing
failed. -/
def ownOf (g : List (String × EntryMeta) → Nat) (fs : Fs) (p : String) : Nat :=
  match fsRead fs p with
  | DirRead.ok items => g items
  | _ => 0

/-- Sum of a per-node quantity over a child list. -/
def sumBy (g : RNode → Nat) (cs : List RNode) : Nat := (cs.map g).sum

/-- The subtree-summary invariant of the collector's result tree: each node's
file count, byte total, per-extension histogram entries and attribute counters
equal its own immediate-file contributions plus the summed contributions of
its children, and every child sits one level deeper, within the depth limit,
and satisfies the invariant recursively. -/
inductive InvTree (fs : Fs) (maxd : Nat) : RNode → Prop where
  | mk (n : RNode)
      (hfiles : n.files = ownOf itemsFiles fs n.path + sumBy (fun c => c.files) n.children)
      (hsize : n.size = ownOf itemsSize fs n.path + sumBy (fun c => c.size) n.children)
      (htc : ∀ ext, hcount n.types ext =
        ownOf (itemsTypeCount ext) fs n.path + sumBy (fun c => hcount c.types ext) n.children)
      (htb : ∀ ext, hbytes n.types ext =
        ownOf (itemsTypeBytes ext) fs n.path + sumBy (fun c => hbytes c.types ext) n.children)
      (hhid : n.attributes.1 =
        ownOf (itemsAttrBit 2) fs n.path + sumBy (fun c => c.attributes.1) n.children)
      (hsys : n.attributes.2.1 =
        ownOf (itemsAttrBit 4) fs n.path + sumBy (fun c => c.attributes.2.1) n.children)
      (hro : n.attributes.2.2 =
        ownOf (itemsAttrBit 1) fs n.path + sumBy (fun c => c.attributes.2.2) n.children)
      (hdep : ∀ c ∈ n.children, c.depth = n.depth + 1 ∧ c.depth ≤ maxd)
      (hch : ∀ c ∈ n.children, InvTree fs maxd c) :
      InvTree fs maxd n

/-- A filesystem whose directories fail to list with each OS-level error kind
(and one with a non-OS exception, for contrast). -/
def exC1 : Fs :=
  [("p1", DirRead.permErr), ("p2", DirRead.notFoundErr), ("p3", DirRead.osErr),
   ("p4", DirRead.excErr)]

/-- A filesystem whose root cannot be listed (permission denied). -/
def exC2 : Fs := [("root", DirRead.permErr)]

/-- A tree with a symbolic link from a subdirectory back into its ancestor:
the root holds a 7-byte file and a subdirectory, and the subdirectory holds a
link named "back" to the root plus a 5-byte file. -/
def exC3 : Fs :=
  [("r", DirRead.ok [("f.txt", ⟨false, EKind.file, some (7, "t1"), none⟩),
                     ("sub", ⟨false, EKind.dir, none, none⟩)]),
   ("r\\sub", DirRead.ok [("back", ⟨true, EKind.dir, none, none⟩),
                          ("g.txt", ⟨false, EKind.file, some (5, "t2"), none⟩)])]

/-- A two-level tree for the subtree-invariant witness. -/
def exC4 : Fs :=
  [("w", DirRead.ok [("a.txt", ⟨false, EKind.file, some (4, "t1"), some 3⟩),
                     ("d", ⟨false, EKind.dir, none, none⟩)]),
   ("w\\d", DirRead.ok [("b.TXT", ⟨false, EKind.file, some (6, "t2"), none⟩)])]

/-- A tree whose only file-typed entry is a symbolic link to a 2 MiB file. -/
def exC6 : Fs :=
  [("r", DirRead.ok [("big.bin", ⟨true, EKind.file, some (2097152, "t"), none⟩)])]

/-- A tree holding a single extensionless 3-byte file. -/
def exC7 : Fs :=
  [("r", DirRead.ok [("README", ⟨false, EKind.file, some (3, "t"), none⟩)])]

/-- A listing with one dot-named entry whose attribute bits are unreadable. -/
def exC10 : Fs := [("d", DirRead.ok [(".git", ⟨false, EKind.dir, none, none⟩)])]

/-- One step of the `get_windows_file_attributes_stats` item loop over the
sorted listing, on the counter triple (hidden, system, readonly).  A symbolic
link is skipped first.  Inside the `try`, the read
`attrs = os.stat(full_path).st_file_attributes` happens before anything else;
when it fails the `except (OSError, PermissionError)` clause skips the whole
entry (on a platform without `st_file_attributes` the `AttributeError` would
instead propagate uncaught — either way the entry contributes nothing to the
counters, which is what this step records for `attrs = none`).  With readable
bits, a file-typed item counts its hidden bit via
`utils.is_hidden_windows_file` (which sees the same readable bits, hence bit
0x02), its system bit 0x4 and its read-only bit 0x1; a dir-typed item adds the
recursive sub-counts — that recursion too sits inside the `try`, after the
directory's own attribute read, so a directory with unreadable bits is skipped
wholesale. -/
def gwfasStep (recur : String → Nat × Nat × Nat) (p : String)
    (stats : Nat × Nat × Nat) (e : String × EntryMeta) : Nat × Nat × Nat :=
  if e.2.isLink then stats
  else
    match e.2.attrs with
    | none => stats
    | some a =>
      if (entryItem e.1 e.2).typ = "file" then
        (stats.1 + (if is_hidden_windows_file e.1 e.2 then 1 else 0),
         stats.2.1 + (if a &&& 4 ≠ 0 then 1 else 0),
         stats.2.2 + (if a &&& 1 ≠ 0 then 1 else 0))
      else if (entryItem e.1 e.2).typ = "dir" then
        (stats.1 + (recur (joinP p e.1)).1,
         stats.2.1 + (recur (joinP p e.1)).2.1,
         stats.2.2 + (recur (joinP p e.1)).2.2)
      else stats

/-- Fuel-indexed body of `analysis.get_windows_file_attributes_stats`: an
invalid root listing returns the zero dictionary, otherwise the counters
start at zero and the loop runs over the sorted listing.  The fuel-zero
branch is unreachable from the wrapper (see the module comment). -/
def gwfasAux (fs : Fs) : Nat → String → Nat × Nat × Nat
  | 0, _ => (0, 0, 0)
  | fuel + 1, p =>
    match listDirRaw fs p with
    | (false, _) => (0, 0, 0)
    | (true, items) => items.foldl (gwfasStep (gwfasAux fs fuel) p) (0, 0, 0)

/-- Models `analysis.get_windows_file_attributes_stats`, returning the
dictionary as the triple (hidden, system, readonly). -/
def get_windows_file_attributes_stats (fs : Fs) (p : String) : Nat × Nat × Nat :=
  gwfasAux fs (fs.length + 1) p

/-- A directory holding one dot-named regular file whose `os.stat` fails, so
its attribute bits are unreadable: the listing's dot fallback marks it
hidden, yet the attribute statistics skip it. -/
def exC10b : Fs :=
  [("d2", DirRead.ok [(".secret", ⟨false, EKind.file, none, none⟩)])]

/-- An `os.path.exists` collaborator reporting every path as existing. -/
def existsAll : String → Bool := fun _ => true

/-- The `pathlib.Path(...).parent` values (stringified) for the concrete
mixed-separator path used against the slash rule: on Windows,
`Path('C:\\a/b').parent` is `C:\a` and `Path('C:\\a').parent` is `C:\`,
whose parent is itself. -/
def parentC9 : String → String := fun s =>
  if s = "C:\\a/b" then "C:\\a" else if s = "C:\\a" then "C:\\" else "C:\\"


theorem entryItem_name (name : String) (m : EntryMeta) : (entryItem name m).name = name := by
  cases h : m.stat <;> simp [entryItem, h]

theorem entryItem_hidden (name : String) (m : EntryMeta) :
    (entryItem name m).hidden = is_hidden_windows_file name m := by
  cases h : m.stat <;> simp [entryItem, h]

/-- C1.  The claim states that `list_directory` returns `ok=false` with an
empty sequence when the directory cannot be opened.  The code does not:
`safe_windows_listdir` swallows `PermissionError`, `FileNotFoundError` and
`OSError` and returns an empty name list, so `list_directory` reports
`(True, [])` for all three OS-level failures — indistinguishable from an
empty directory — contradicting its own docstring ("success flag (True if
directory was successfully read)").  Only a non-OS exception (never raised by
`os.listdir`) reaches the `(False, [])` branch.  This theorem evaluates the
model at the failing inputs. -/
theorem list_directory_os_error_ok_true :
    list_directory exC1 "p1" = (true, []) ∧
    list_directory exC1 "p2" = (true, []) ∧
    list_directory exC1 "p3" = (true, []) ∧
    list_directory exC1 "p4" = (false, []) := by
  decide

/-- C2.  The claim states `count_files`/`count_bytes` return `ok=false`
exactly when the root listing fails.  Because `list_directory` reports
success on OS-level failures (see C1), both functions return `(True, 0)` on a
root whose listing raises `PermissionError`, so the documented root-failure
signal never fires.  This theorem evaluates the model at the failing input. -/
theorem count_root_os_error_ok_true :
    count_files exC2 "root" = (true, 0) ∧ count_bytes exC2 "root" = (true, 0) := by
  decide

/-- C10.  For an entry whose Windows attribute bits cannot be read
(`os.stat` failing, or a platform without `st_file_attributes`), the hidden
flag that `list_directory` reports for the entry is exactly "the base name
starts with a dot", and that entry's dict is part of the listing.  The hidden
count in the attribute statistics, however, does NOT follow this fallback:
the per-item step of `get_windows_file_attributes_stats` leaves all three
counters unchanged on such an entry, because the attribute read precedes
everything inside the `try` and its failure skips the item (`except (OSError,
PermissionError): continue`; on a platform missing the field the
`AttributeError` would instead abort the call uncaught). -/
theorem listing_hidden_fallback_dotfile (fs : Fs) (p name : String) (m : EntryMeta)
    (hmem : (name, m) ∈ (listDirRaw fs p).2) (hattrs : m.attrs = none) :
    ((entryItem name m).hidden = pyStartsWith name ".") ∧
    entryItem name m ∈ (list_directory fs p).2 ∧
    ∀ (recur : String → Nat × Nat × Nat) (stats : Nat × Nat × Nat),
      gwfasStep recur p stats (name, m) = stats := by
  refine ⟨?_, ?_, ?_⟩
  · rw [entryItem_hidden]
    unfold is_hidden_windows_file
    rw [hattrs]
  · unfold list_directory
    exact List.mem_map_of_mem _ hmem
  · intro recur stats
    unfold gwfasStep
    by_cases hl : m.isLink = true <;> simp [hl, hattrs]

theorem listing_hidden_fallback_dotfile_witness :
    ((entryItem ".git" ⟨false, EKind.dir, none, none⟩).hidden = pyStartsWith ".git" ".") ∧
    entryItem ".git" ⟨false, EKind.dir, none, none⟩ ∈ (list_directory exC10 "d").2 ∧
    gwfasStep (fun _ => (0, 0, 0)) "d" (0, 0, 0) (".git", ⟨false, EKind.dir, none, none⟩) =
      (0, 0, 0) := by
  have h := listing_hidden_fallback_dotfile exC10 "d" ".git" ⟨false, EKind.dir, none, none⟩
    (by decide) rfl
  exact ⟨h.1, h.2.1, h.2.2 (fun _ => (0, 0, 0)) (0, 0, 0)⟩

/-- C10 counterexample.  The claim also asserts that the hidden count in the
attribute statistics follows the dot fallback; `get_windows_file_attributes_stats`
contradicts this.  Its `try` reads `st_file_attributes` before anything else
and `except (OSError, PermissionError): continue` skips any entry whose read
fails, so a dot-named file with unreadable bits contributes 0 (and a platform
without `st_file_attributes` would raise an uncaught `AttributeError`).  Here
the listing marks its single entry — a dot-named file whose `os.stat` fails —
hidden via the dot fallback, yet the statistics report zero hidden files where
the claim predicts one. -/
theorem attribute_stats_skip_unreadable_counterexample :
    (list_directory exC10b "d2").2.map (fun it => it.hidden) = [true] ∧
    get_windows_file_attributes_stats exC10b "d2" = (0, 0, 0) := by
  decide

theorem isPrefixOf_append_self (l t : List Char) : l.isPrefixOf (l ++ t) = true := by
  induction l with
  | nil => simp [List.isPrefixOf]
  | cons c cs ih => simp [List.isPrefixOf, ih]

theorem pyStartsWith_append_left (a b : String) : pyStartsWith (a ++ b) a = true := by
  unfold pyStartsWith
  rw [String.data_append]
  exact isPrefixOf_append_self _ _

theorem pyStartsWith_UNC (s : String) :
    pyStartsWith ("\\\\?\\UNC\\" ++ s) "\\\\?\\" = true := by
  unfold pyStartsWith
  rw [String.data_append]
  have h : ("\\\\?\\UNC\\").data = "\\\\?\\".data ++ "UNC\\".data := rfl
  rw [h, List.append_assoc]
  exact isPrefixOf_append_self _ _

/-- C8.  `resolve_long_paths_recursive` is idempotent under its default
prefix, and an already-prefixed path passes through unchanged.  The external
collaborators `os.path.normpath` and `os.path.abspath` are assumed to satisfy
three facts true of the real functions: `normpath` is idempotent,
`abspath` is invariant under prior normalization, and a normalized path that
starts with a double separator is UNC-absolute, hence equal to its abspath. -/
theorem resolve_long_paths_idempotent (abspath normpath : String → String)
    (H1 : ∀ s, normpath (normpath s) = normpath s)
    (H2 : ∀ s, abspath (normpath s) = abspath s)
    (H3 : ∀ s, pyStartsWith (normpath s) "\\\\" = true → normpath s = abspath s) :
    ∀ p : String,
      resolve_long_paths_recursive abspath normpath
          (resolve_long_paths_recursive abspath normpath p) =
        resolve_long_paths_recursive abspath normpath p ∧
      (pyStartsWith p "\\\\?\\" = true →
        resolve_long_paths_recursive abspath normpath p = p) := by
  have pass : ∀ q : String, pyStartsWith q "\\\\?\\" = true →
      resolve_long_paths_recursive abspath normpath q = q := by
    intro q hq
    unfold resolve_long_paths_recursive
    rw [if_pos hq]
  intro p
  refine ⟨?_, pass p⟩
  by_cases h1 : pyStartsWith p "\\\\?\\" = true
  · rw [pass p h1]
    exact pass p h1
  · by_cases h2 : pyStartsWith p "\\\\" = true
    · by_cases h3 : p.length > 260 ∧ ¬ pyStartsWith p "\\\\?\\UNC\\" = true
      · have hval : resolve_long_paths_recursive abspath normpath p =
            "\\\\?\\UNC\\" ++ (⟨p.data.drop 2⟩ : String) := by
          unfold resolve_long_paths_recursive
          rw [if_neg h1, if_pos h2, if_pos h3]
        rw [hval]
        exact pass _ (pyStartsWith_UNC _)
      · have hval : resolve_long_paths_recursive abspath normpath p = p := by
          unfold resolve_long_paths_recursive
          rw [if_neg h1, if_pos h2, if_neg h3]
        rw [hval]
        exact hval
    · by_cases h4 : (abspath p).length > 260
      · have hval : resolve_long_paths_recursive abspath normpath p =
            "\\\\?\\" ++ abspath p := by
          unfold resolve_long_paths_recursive
          rw [if_neg h1, if_neg h2, if_pos h4, if_pos h1]
        rw [hval]
        exact pass _ (pyStartsWith_append_left _ _)
      · have hval : resolve_long_paths_recursive abspath normpath p = normpath p := by
          unfold resolve_long_paths_recursive
          rw [if_neg h1, if_neg h2, if_neg h4]
        rw [hval]
        by_cases g1 : pyStartsWith (normpath p) "\\\\?\\" = true
        · exact pass _ g1
        · by_cases g2 : pyStartsWith (normpath p) "\\\\" = true
          · have habs := H3 p g2
            have hcond : ¬ ((normpath p).length > 260 ∧
                ¬ pyStartsWith (normpath p) "\\\\?\\UNC\\" = true) := by
              intro hc
              apply absurd hc.1
              rw [habs]
              omega
            unfold resolve_long_paths_recursive
            rw [if_neg g1, if_pos g2, if_neg hcond]
          · have g4 : ¬ (abspath (normpath p)).length > 260 := by
              rw [H2 p]
              omega
            unfold resolve_long_paths_recursive
            rw [if_neg g1, if_neg g2, if_neg g4]
            exact H1 p

theorem resolve_long_paths_idempotent_witness :
    resolve_long_paths_recursive id id (resolve_long_paths_recursive id id "C:\\u") =
      resolve_long_paths_recursive id id "C:\\u" ∧
    resolve_long_paths_recursive id id "\\\\?\\C:\\u" = "\\\\?\\C:\\u" := by
  have h := resolve_long_paths_idempotent id id (fun _ => rfl) (fun _ => rfl)
    (fun _ _ => rfl)
  exact ⟨(h "C:\\u").1, (h "\\\\?\\C:\\u").2 (by decide)⟩

/-- C9 counterexample.  The claim says every path containing a forward-slash
separator gets at least one problem and an invalid report.  The code only
flags '/' when no backslash remains after deleting "://" occurrences, so the
existing mixed-separator path "C:\a/b" (with the pathlib parent chain
C:\a, C:\) validates with zero problems. -/
theorem validate_mixed_separators_counterexample :
    ('/' ∈ "C:\\a/b".data) ∧
    validate_windows_path_recursive existsAll parentC9 "C:\\a/b" = (true, []) := by
  decide

theorem vAux_flag_iff (pexists : String → Bool) (parentOf : String → String) :
    ∀ (gas : Nat) (pathS : String) (depth : Nat),
      (vAux pexists parentOf gas pathS depth).1 = true ↔
      (vAux pexists parentOf gas pathS depth).2 = [] := by
  intro gas pathS depth
  cases gas with
  | zero => simp [vAux]
  | succ g =>
    by_cases h : depth > 50
    · simp [vAux, h]
    · simp only [vAux, if_neg h]
      constructor
      · intro h1
        exact List.isEmpty_iff.mp h1
      · intro h1
        exact List.isEmpty_iff.mpr h1


theorem vAux_succ_structure (pexists : String → Bool) (parentOf : String → String)
    (g : Nat) (pathS : String) (depth : Nat) (h : ¬ depth > 50) :
    ∃ rest : List String,
      (vAux pexists parentOf (g + 1) pathS depth).2 =
        forbiddenProbs pathS ++ slashProbs pathS ++ rest := by
  simp only [vAux, if_neg h]
  split
  · split
    · refine ⟨colonProbs pathS ++ lengthProbs pathS ++ existsProbs pexists pathS depth ++
        (vAux pexists parentOf g (parentOf pathS) (depth + 1)).2, ?_⟩
      simp [List.append_assoc]
    · refine ⟨colonProbs pathS ++ lengthProbs pathS ++ existsProbs pexists pathS depth, ?_⟩
      simp [List.append_assoc]
  · refine ⟨colonProbs pathS ++ lengthProbs pathS ++ existsProbs pexists pathS depth, ?_⟩
    simp [List.append_assoc]

/-- C9 (amended).  Any path containing one of the forbidden characters
`* ? " > < |` yields at least one problem and an invalid report; a path
containing a forward-slash separator is flagged when no backslash remains
after deleting "://" occurrences (a mixed-separator path is not flagged — see
the counterexample); and the report is valid exactly when no problems were
appended anywhere in the ancestor chain. -/
theorem validate_forbidden_and_slash_rules (pexists : String → Bool)
    (parentOf : String → String) (pathS : String) (depth : Nat) :
    (∀ c, c ∈ (['*', '?', '"', '>', '<', '|'] : List Char) →
        pathS.data.contains c = true →
        (validate_windows_path_recursive pexists parentOf pathS depth).1 = false ∧
        (validate_windows_path_recursive pexists parentOf pathS depth).2 ≠ []) ∧
    ((pathS.data.contains '/' = true ∧ (removeSub pathS.data).contains '\\' = false) →
        (validate_windows_path_recursive pexists parentOf pathS depth).1 = false ∧
        (validate_windows_path_recursive pexists parentOf pathS depth).2 ≠ []) ∧
    ((validate_windows_path_recursive pexists parentOf pathS depth).1 = true ↔
        (validate_windows_path_recursive pexists parentOf pathS depth).2 = []) := by
  unfold validate_windows_path_recursive
  have hiff := vAux_flag_iff pexists parentOf (51 - depth) pathS depth
  have hflag : (vAux pexists parentOf (51 - depth) pathS depth).2 ≠ [] →
      (vAux pexists parentOf (51 - depth) pathS depth).1 = false := by
    intro hne
    cases hfl : (vAux pexists parentOf (51 - depth) pathS depth).1 with
    | false => rfl
    | true => exact absurd (hiff.mp hfl) hne
  refine ⟨?_, ?_, hiff⟩
  · intro c hc hcont
    have hne : (vAux pexists parentOf (51 - depth) pathS depth).2 ≠ [] := by
      cases hgas : 51 - depth with
      | zero => simp [vAux]
      | succ g =>
        by_cases hd : depth > 50
        · simp [vAux, hd]
        · obtain ⟨rest, hrest⟩ := vAux_succ_structure pexists parentOf g pathS depth hd
          rw [hrest]
          have hcf : c ∈ ['*', '?', '"', '>', '<', '|'].filter
              (fun c => pathS.data.contains c) :=
            List.mem_filter.mpr ⟨hc, hcont⟩
          intro hnil
          simp only [List.append_eq_nil] at hnil
          have hfnil := hnil.1.1
          unfold forbiddenProbs at hfnil
          rw [List.map_eq_nil_iff] at hfnil
          rw [hfnil] at hcf
          cases hcf
    exact ⟨hflag hne, hne⟩
  · intro hs
    have hne : (vAux pexists parentOf (51 - depth) pathS depth).2 ≠ [] := by
      cases hgas : 51 - depth with
      | zero => simp [vAux]
      | succ g =>
        by_cases hd : depth > 50
        · simp [vAux, hd]
        · obtain ⟨rest, hrest⟩ := vAux_succ_structure pexists parentOf g pathS depth hd
          rw [hrest]
          have hsl : slashProbs pathS = ["Use \\\\ instead of / in path: " ++ pathS] := by
            unfold slashProbs
            refine if_pos ⟨hs.1, fun hcontra => ?_⟩
            rw [hs.2] at hcontra
            exact Bool.noConfusion hcontra
          rw [hsl]
          intro hnil
          simp only [List.append_eq_nil] at hnil
          exact absurd hnil.1.2 (by simp)
    exact ⟨hflag hne, hne⟩

theorem validate_forbidden_and_slash_rules_witness :
    (validate_windows_path_recursive existsAll parentC9 "C:*x").1 = false ∧
    (validate_windows_path_recursive existsAll parentC9 "C:*x").2 ≠ [] :=
  (validate_forbidden_and_slash_rules existsAll parentC9 "C:*x" 0).1 '*'
    (by decide) (by decide)

theorem foldl_hom_add {α : Type} (step : Nat → α → Nat) (δ : α → Nat)
    (hstep : ∀ acc e, step acc e = acc + δ e) (l : List α) (a : Nat) :
    l.foldl step a = a + (l.map δ).sum := by
  induction l generalizing a with
  | nil => simp
  | cons x xs ih =>
    simp only [List.foldl, List.map, List.sum_cons]
    rw [hstep, ih]
    omega

theorem foldl_rel {α β γ : Type} {R : β → γ → Prop} {s1 : β → α → β} {s2 : γ → α → γ} :
    ∀ (l : List α) (b : β) (c : γ), R b c →
      (∀ b2 c2 e, e ∈ l → R b2 c2 → R (s1 b2 e) (s2 c2 e)) →
      R (l.foldl s1 b) (l.foldl s2 c) := by
  intro l
  induction l with
  | nil => intro b c hR _; exact hR
  | cons x xs ih =>
    intro b c hR hstep
    exact ih (s1 b x) (s2 c x) (hstep b c x (List.mem_cons_self x xs) hR)
      (fun b2 c2 e he => hstep b2 c2 e (List.mem_cons_of_mem x he))

theorem hcount_cons (k : String) (c b : Nat) (t : Hist) (x : String) :
    hcount ((k, c, b) :: t) x = (if k = x then c else 0) + hcount t x := by
  simp [hcount]

theorem hbytes_cons (k : String) (c b : Nat) (t : Hist) (x : String) :
    hbytes ((k, c, b) :: t) x = (if k = x then b else 0) + hbytes t x := by
  simp [hbytes]

theorem hcount_hadd (h : Hist) (k : String) (c b : Nat) (x : String) :
    hcount (hadd h k c b) x = hcount h x + (if k = x then c else 0) := by
  induction h with
  | nil => simp [hadd, hcount]
  | cons e t ih =>
    obtain ⟨k0, c0, b0⟩ := e
    by_cases hk : k0 = k
    · subst hk
      rw [hadd, if_pos rfl, hcount_cons, hcount_cons]
      by_cases hx : k0 = x <;> simp [hx] <;> omega
    · rw [hadd, if_neg hk, hcount_cons, hcount_cons, ih]
      omega

theorem hbytes_hadd (h : Hist) (k : String) (c b : Nat) (x : String) :
    hbytes (hadd h k c b) x = hbytes h x + (if k = x then b else 0) := by
  induction h with
  | nil => simp [hadd, hbytes]
  | cons e t ih =>
    obtain ⟨k0, c0, b0⟩ := e
    by_cases hk : k0 = k
    · subst hk
      rw [hadd, if_pos rfl, hbytes_cons, hbytes_cons]
      by_cases hx : k0 = x <;> simp [hx] <;> omega
    · rw [hadd, if_neg hk, hbytes_cons, hbytes_cons, ih]
      omega

theorem sumCounts_hadd (h : Hist) (k : String) (c b : Nat) :
    sumCounts (hadd h k c b) = sumCounts h + c := by
  induction h with
  | nil => simp [hadd, sumCounts]
  | cons e t ih =>
    obtain ⟨k0, c0, b0⟩ := e
    by_cases hk : k0 = k
    · subst hk
      rw [hadd, if_pos rfl]
      simp [sumCounts]
      omega
    · rw [hadd, if_neg hk]
      simp [sumCounts] at ih ⊢
      omega

theorem sumBytes_hadd (h : Hist) (k : String) (c b : Nat) :
    sumBytes (hadd h k c b) = sumBytes h + b := by
  induction h with
  | nil => simp [hadd, sumBytes]
  | cons e t ih =>
    obtain ⟨k0, c0, b0⟩ := e
    by_cases hk : k0 = k
    · subst hk
      rw [hadd, if_pos rfl]
      simp [sumBytes]
      omega
    · rw [hadd, if_neg hk]
      simp [sumBytes] at ih ⊢
      omega

theorem hcount_hmerge (h ts : Hist) (x : String) :
    hcount (hmergeList h ts) x = hcount h x + hcount ts x := by
  induction ts generalizing h with
  | nil => simp [hmergeList, hcount]
  | cons e t ih =>
    obtain ⟨k, c, b⟩ := e
    show hcount (hmergeList (hadd h k c b) t) x = _
    rw [ih, hcount_hadd, hcount_cons]
    omega

theorem hbytes_hmerge (h ts : Hist) (x : String) :
    hbytes (hmergeList h ts) x = hbytes h x + hbytes ts x := by
  induction ts generalizing h with
  | nil => simp [hmergeList, hbytes]
  | cons e t ih =>
    obtain ⟨k, c, b⟩ := e
    show hbytes (hmergeList (hadd h k c b) t) x = _
    rw [ih, hbytes_hadd, hbytes_cons]
    omega

theorem sumCounts_hmerge (h ts : Hist) :
    sumCounts (hmergeList h ts) = sumCounts h + sumCounts ts := by
  induction ts generalizing h with
  | nil => simp [hmergeList, sumCounts]
  | cons e t ih =>
    obtain ⟨k, c, b⟩ := e
    show sumCounts (hmergeList (hadd h k c b) t) = _
    rw [ih, sumCounts_hadd]
    simp [sumCounts]
    omega

theorem sumBytes_hmerge (h ts : Hist) :
    sumBytes (hmergeList h ts) = sumBytes h + sumBytes ts := by
  induction ts generalizing h with
  | nil => simp [hmergeList, sumBytes]
  | cons e t ih =>
    obtain ⟨k, c, b⟩ := e
    show sumBytes (hmergeList (hadd h k c b) t) = _
    rw [ih, sumBytes_hadd]
    simp [sumBytes]
    omega

theorem awft_cf_fold (recurA : String → Bool × Hist) (recurC : String → Bool × Nat)
    (hrec : ∀ q, (recurA q).1 = (recurC q).1 ∧ sumCounts (recurA q).2 = (recurC q).2)
    (p : String) :
    ∀ (l : List (String × EntryMeta)) (stats : Hist) (total : Nat),
      sumCounts stats = total →
      sumCounts (l.foldl (awftStep recurA p) stats) = l.foldl (cfStep recurC p) total := by
  intro l
  induction l with
  | nil => intro stats total h; exact h
  | cons e rest ih =>
    intro stats total h
    simp only [List.foldl]
    apply ih
    unfold awftStep cfStep
    by_cases hl : e.2.isLink = true
    · simp [hl, h]
    · by_cases hf : (entryItem e.1 e.2).typ = "file"
      · simp [hl, hf, sumCounts_hadd, h]
      · by_cases hd : (entryItem e.1 e.2).typ = "dir"
        · obtain ⟨hF, hS⟩ := hrec (joinP p e.1)
          cases hc : recurC (joinP p e.1) with
          | mk cv cn =>
            cases ha : recurA (joinP p e.1) with
            | mk av asub =>
              rw [hc, ha] at hF hS
              simp only at hF hS
              subst hF
              cases av with
              | true => simp [hl, hf, hd, ha, hc, sumCounts_hmerge, h, hS]
              | false => simp [hl, hf, hd, ha, hc, h]
        · simp [hl, hf, hd, h]

theorem awft_cb_fold (recurA : String → Bool × Hist) (recurC : String → Bool × Nat)
    (hrec : ∀ q, (recurA q).1 = (recurC q).1 ∧ sumBytes (recurA q).2 = (recurC q).2)
    (p : String) :
    ∀ (l : List (String × EntryMeta)) (stats : Hist) (total : Nat),
      sumBytes stats = total →
      sumBytes (l.foldl (awftStep recurA p) stats) = l.foldl (cbStep recurC p) total := by
  intro l
  induction l with
  | nil => intro stats total h; exact h
  | cons e rest ih =>
    intro stats total h
    simp only [List.foldl]
    apply ih
    unfold awftStep cbStep
    by_cases hl : e.2.isLink = true
    · simp [hl, h]
    · by_cases hf : (entryItem e.1 e.2).typ = "file"
      · simp [hl, hf, sumBytes_hadd, h]
      · by_cases hd : (entryItem e.1 e.2).typ = "dir"
        · obtain ⟨hF, hS⟩ := hrec (joinP p e.1)
          cases hc : recurC (joinP p e.1) with
          | mk cv cn =>
            cases ha : recurA (joinP p e.1) with
            | mk av asub =>
              rw [hc, ha] at hF hS
              simp only at hF hS
              subst hF
              cases av with
              | true => simp [hl, hf, hd, ha, hc, sumBytes_hmerge, h, hS]
              | false => simp [hl, hf, hd, ha, hc, h]
        · simp [hl, hf, hd, h]

theorem awft_cf_rel (fs : Fs) : ∀ (fuel : Nat) (p : String),
    (awftAux fs fuel p).1 = (cfAux fs fuel p).1 ∧
    sumCounts (awftAux fs fuel p).2 = (cfAux fs fuel p).2 := by
  intro fuel
  induction fuel with
  | zero => intro p; exact ⟨rfl, rfl⟩
  | succ fuel ih =>
    intro p
    simp only [awftAux, cfAux]
    cases hld : listDirRaw fs p with
    | mk valid items =>
      cases valid with
      | false => exact ⟨rfl, rfl⟩
      | true =>
        exact ⟨rfl, awft_cf_fold (awftAux fs fuel) (cfAux fs fuel) ih p items [] 0 rfl⟩

theorem awft_cb_rel (fs : Fs) : ∀ (fuel : Nat) (p : String),
    (awftAux fs fuel p).1 = (cbAux fs fuel p).1 ∧
    sumBytes (awftAux fs fuel p).2 = (cbAux fs fuel p).2 := by
  intro fuel
  induction fuel with
  | zero => intro p; exact ⟨rfl, rfl⟩
  | succ fuel ih =>
    intro p
    simp only [awftAux, cbAux]
    cases hld : listDirRaw fs p with
    | mk valid items =>
      cases valid with
      | false => exact ⟨rfl, rfl⟩
      | true =>
        exact ⟨rfl, awft_cb_fold (awftAux fs fuel) (cbAux fs fuel) ih p items [] 0 rfl⟩

/-- C7 (amended).  The histogram built by `analyze_windows_file_types` —
keyed by `splitext(name)[1].lower()`, the empty string for files without an
extension — sums exactly to the `count_files` count and the `count_bytes`
byte total: no double counting, no omission, including through recursive
merging and the shared success flag.  (The recursive collector's histogram
instead uses the key 'no_extension' and omits files whose size could not be
read; see the counterexample.) -/
theorem analyze_histogram_sums_exact (fs : Fs) (p : String) :
    (analyze_windows_file_types fs p).1 = (count_files fs p).1 ∧
    (analyze_windows_file_types fs p).1 = (count_bytes fs p).1 ∧
    sumCounts (analyze_windows_file_types fs p).2 = (count_files fs p).2 ∧
    sumBytes (analyze_windows_file_types fs p).2 = (count_bytes fs p).2 :=
  ⟨(awft_cf_rel fs (fs.length + 1) p).1, (awft_cb_rel fs (fs.length + 1) p).1,
   (awft_cf_rel fs (fs.length + 1) p).2, (awft_cb_rel fs (fs.length + 1) p).2⟩

/-- C7 counterexample.  The claim keys extensionless files under the empty
string; the recursive collector instead uses the literal key 'no_extension',
so a tree holding one extensionless file yields one file but zero entries
under the empty-string key. -/
theorem collect_no_extension_key_counterexample :
    collect_windows_metadata_recursive exC7 "r" 10 =
      Except.ok ⟨"r", 0, 1, 0, 3, [("no_extension", 1, 3)], (0, 0, 0), []⟩ ∧
    hcount [("no_extension", 1, 3)] "" = 0 :=
  ⟨rfl, rfl⟩

theorem fsRead_dropLinks (fs : Fs) (p : String) :
    fsRead (dropLinksFs fs) p =
      match fsRead fs p with
      | DirRead.ok items => DirRead.ok (items.filter (fun it => !it.2.isLink))
      | d => d := by
  induction fs with
  | nil => rfl
  | cons a rest ih =>
    obtain ⟨k, d⟩ := a
    by_cases h : k = p
    · subst h
      cases d <;> simp [dropLinksFs, fsRead]
    · simpa [dropLinksFs, fsRead, h] using ih

theorem colItems_congr (maxd : Nat) (base : String) (depth : Nat)
    (recur1 recur2 : String → List String → Except Unit (Option RNode × List String))
    (h : ∀ q v, recur1 q v = recur2 q v) :
    ∀ (items : List (String × EntryMeta)) (acc : RNode) (vis : List String),
      colItems recur1 maxd base depth items acc vis =
      colItems recur2 maxd base depth items acc vis := by
  intro items
  induction items with
  | nil => intro acc vis; rfl
  | cons e rest ih =>
    intro acc vis
    obtain ⟨name, m⟩ := e
    simp only [colItems]
    split
    · exact ih _ _
    · split
      · split
        · exact ih _ _
        · exact ih _ _
      · split
        · split
          · rw [h (joinP base name) vis]
            split
            · rfl
            · exact ih _ _
            · exact ih _ _
          · exact ih _ _
        · exact ih _ _

theorem colItems_filter_links (maxd : Nat) (base : String) (depth : Nat)
    (recur : String → List String → Except Unit (Option RNode × List String)) :
    ∀ (items : List (String × EntryMeta)) (acc : RNode) (vis : List String),
      colItems recur maxd base depth (items.filter (fun it => !it.2.isLink)) acc vis =
      colItems recur maxd base depth items acc vis := by
  intro items
  induction items with
  | nil => intro acc vis; rfl
  | cons e rest ih =>
    intro acc vis
    obtain ⟨name, m⟩ := e
    by_cases hl : m.isLink = true
    · have hflt : ((name, m) :: rest).filter (fun it => !it.2.isLink) =
          rest.filter (fun it => !it.2.isLink) := by
        simp [List.filter, hl]
      rw [hflt, ih]
      symm
      simp [colItems, hl]
    · have hflt : ((name, m) :: rest).filter (fun it => !it.2.isLink) =
          (name, m) :: rest.filter (fun it => !it.2.isLink) := by
        simp [List.filter, hl]
      rw [hflt]
      simp only [colItems]
      split
      · exact ih _ _
      · split
        · split
          · exact ih _ _
          · exact ih _ _
        · split
          · split
            · split
              · rfl
              · exact ih _ _
              · exact ih _ _
            · exact ih _ _
          · exact ih _ _

theorem colRec_dropLinks (fs : Fs) (maxd : Nat) :
    ∀ (gas : Nat) (p : String) (depth : Nat) (vis : List String),
      colRec (dropLinksFs fs) maxd gas p depth vis = colRec fs maxd gas p depth vis := by
  intro gas
  induction gas with
  | zero => intro p depth vis; rfl
  | succ gas ih =>
    intro p depth vis
    simp only [colRec]
    by_cases hg : depth > maxd ∨ p ∈ vis
    · rw [if_pos hg, if_pos hg]
    · rw [if_neg hg, if_neg hg, fsRead_dropLinks]
      cases hr : fsRead fs p with
      | ok items =>
        have h1 := colItems_congr maxd p depth
          (fun q v => colRec (dropLinksFs fs) maxd gas q (depth + 1) v)
          (fun q v => colRec fs maxd gas q (depth + 1) v)
          (fun q v => ih q (depth + 1) v)
          (items.filter (fun it => !it.2.isLink)) (zeroNode p depth) (p :: vis)
        have h2 := colItems_filter_links maxd p depth
          (fun q v => colRec fs maxd gas q (depth + 1) v)
          items (zeroNode p depth) (p :: vis)
        simp only []
        rw [h1, h2]
      | permErr => rfl
      | notFoundErr => rfl
      | osErr => rfl
      | excErr => rfl

/-- C3.  A symbolic link pointing anywhere — in particular into an ancestor
directory — contributes nothing to a scan: removing every link entry from
every listing leaves `collect_windows_metadata_recursive` unchanged, because
the collector skips links before counting or recursing, so a link into an
ancestor can neither re-add the ancestor's contents (no double counting) nor
extend the traversal.  The scan is a total function of the modelled
filesystem (it terminates; the recursion is bounded by the depth guard), and
on the concrete ancestor-cycle tree `exC3` it returns exactly the
once-counted totals. -/
theorem collect_skips_symlinks_and_terminates :
    (∀ (fs : Fs) (p : String) (maxd : Nat),
        collect_windows_metadata_recursive (dropLinksFs fs) p maxd =
        collect_windows_metadata_recursive fs p maxd) ∧
    collect_windows_metadata_recursive exC3 "r" 10 =
      Except.ok ⟨"r", 0, 2, 1, 12, [(".txt", 2, 12)], (0, 0, 0),
        [⟨"r\\sub", 1, 1, 0, 5, [(".txt", 1, 5)], (0, 0, 0), []⟩]⟩ := by
  constructor
  · intro fs p maxd
    unfold collect_windows_metadata_recursive
    rw [colRec_dropLinks fs maxd (maxd + 1) p 0 []]
  · rfl

theorem wmStar_of_here (f : List Char → Bool) (s : List Char) (h : f s = true) :
    wmStar f s = true := by
  cases s <;> simp [wmStar, h]

theorem wmStar_of_tail (f : List Char → Bool) (c : Char) (ss : List Char)
    (h : wmStar f ss = true) : wmStar f (c :: ss) = true := by
  simp [wmStar, h]

theorem patternSpec_implies_match : ∀ {ps ss : List Char},
    PatternSpec ps ss → wildcardMatch ps ss = true := by
  intro ps ss h
  induction h with
  | nil => rfl
  | lit c h1 h2 _ ih => simp [wildcardMatch, h1, h2, ih]
  | one c _ ih => simp [wildcardMatch, ih]
  | starSkip _ ih =>
    rw [wildcardMatch]
    exact wmStar_of_here _ _ ih
  | starEat c _ ih =>
    rw [wildcardMatch]
    rw [wildcardMatch] at ih
    exact wmStar_of_tail _ _ _ ih

theorem match_implies_patternSpec :
    ∀ (n : Nat) (ps ss : List Char), ps.length + ss.length ≤ n →
      wildcardMatch ps ss = true → PatternSpec ps ss := by
  intro n
  induction n with
  | zero =>
    intro ps ss hlen hm
    cases ps with
    | nil =>
      cases ss with
      | nil => exact PatternSpec.nil
      | cons d ss2 => simp at hlen
    | cons c ps2 => simp at hlen
  | succ n ih =>
    intro ps ss hlen hm
    cases ps with
    | nil =>
      cases ss with
      | nil => exact PatternSpec.nil
      | cons d ss2 => simp [wildcardMatch] at hm
    | cons c ps2 =>
      by_cases hstar : c = '*'
      · subst hstar
        rw [wildcardMatch] at hm
        cases ss with
        | nil =>
          have hm2 : wildcardMatch ps2 [] = true := by simpa [wmStar] using hm
          refine PatternSpec.starSkip (ih ps2 [] ?_ hm2)
          simp at hlen ⊢
          omega
        | cons d ss2 =>
          rw [wmStar, Bool.or_eq_true] at hm
          rcases hm with hm | hm
          · refine PatternSpec.starSkip (ih ps2 (d :: ss2) ?_ hm)
            simp at hlen ⊢
            omega
          · have hm2 : wildcardMatch ('*' :: ps2) ss2 = true := by
              rw [wildcardMatch]
              exact hm
            refine PatternSpec.starEat d (ih ('*' :: ps2) ss2 ?_ hm2)
            simp at hlen ⊢
            omega
      · by_cases hq : c = '?'
        · subst hq
          cases ss with
          | nil => simp [wildcardMatch] at hm
          | cons d ss2 =>
            rw [wildcardMatch] at hm
            refine PatternSpec.one d (ih ps2 ss2 ?_ hm)
            simp at hlen ⊢
            omega
        · cases ss with
          | nil => simp [wildcardMatch, hstar, hq] at hm
          | cons d ss2 =>
            have hm2 : (decide (c = d) && wildcardMatch ps2 ss2) = true := by
              simpa [wildcardMatch, hstar, hq] using hm
            rw [Bool.and_eq_true] at hm2
            have hcd : c = d := of_decide_eq_true hm2.1
            subst hcd
            refine PatternSpec.lit c hstar hq (ih ps2 ss2 ?_ hm2.2)
            simp at hlen ⊢
            omega

theorem ffw_afi_fold (recurF : String → List String)
    (recurA : String → List (String × LDItem)) (pattern : String) (cs : Bool) (p : String)
    (hrec : ∀ q, recurF q =
      ((recurA q).filter (fun x => pyMatch pattern x.2.name cs)).map (fun x => x.1)) :
    ∀ (l : List (String × EntryMeta)) (res : List String) (resA : List (String × LDItem)),
      res = (resA.filter (fun x => pyMatch pattern x.2.name cs)).map (fun x => x.1) →
      l.foldl (ffwStep recurF pattern cs p) res =
        ((l.foldl (afiStep recurA p) resA).filter
          (fun x => pyMatch pattern x.2.name cs)).map (fun x => x.1) := by
  intro l
  induction l with
  | nil => intro res resA h; exact h
  | cons e rest ih =>
    intro res resA h
    simp only [List.foldl]
    apply ih
    unfold ffwStep afiStep
    by_cases hf : (entryItem e.1 e.2).typ = "file"
    · rw [if_pos hf, if_pos hf, List.filter_append, List.map_append, ← h]
      by_cases hm : pyMatch pattern e.1 cs = true
      · rw [if_pos hm]
        simp [List.filter, entryItem_name, hm]
      · rw [if_neg hm]
        simp [List.filter, entryItem_name, hm]
    · rw [if_neg hf, if_neg hf]
      by_cases hd : (entryItem e.1 e.2).typ = "dir"
      · rw [if_pos hd, if_pos hd, List.filter_append, List.map_append, ← h,
          hrec (joinP p e.1)]
      · rw [if_neg hd, if_neg hd]
        exact h

theorem ffw_afi_rel (fs : Fs) (pattern : String) (cs : Bool) :
    ∀ (fuel : Nat) (p : String),
      ffwAux fs pattern cs fuel p =
        ((afiAux fs fuel p).filter (fun x => pyMatch pattern x.2.name cs)).map
          (fun x => x.1) := by
  intro fuel
  induction fuel with
  | zero => intro p; rfl
  | succ fuel ih =>
    intro p
    simp only [ffwAux, afiAux]
    cases hld : listDirRaw fs p with
    | mk valid items =>
      cases valid with
      | false => rfl
      | true =>
        exact ffw_afi_fold (ffwAux fs pattern cs fuel) (afiAux fs fuel) pattern cs p
          ih items [] [] rfl

/-- C5.  `find_files_windows` returns exactly the full paths of the
file-typed entries of the tree whose name matches the pattern, where the
matcher realizes the spec relation `PatternSpec` — `*` matches zero or more
characters, `?` exactly one, all other characters literally, anchored to the
whole name — and the default invocation folds both pattern and name to lower
case (case-insensitive). -/
theorem find_files_windows_pattern_semantics :
    (∀ (fs : Fs) (pattern p : String),
        find_files_windows fs pattern p =
          ((allFileItems fs p).filter (fun x => pyMatch pattern x.2.name false)).map
            (fun x => x.1)) ∧
    (∀ ps ss : List Char, wildcardMatch ps ss = true ↔ PatternSpec ps ss) ∧
    (∀ pattern name : String, pyMatch pattern name false =
      wildcardMatch (pyLower pattern).data (pyLower name).data) := by
  refine ⟨?_, ?_, ?_⟩
  · intro fs pattern p
    exact ffw_afi_rel fs pattern false (fs.length + 1) p
  · intro ps ss
    exact ⟨fun h => match_implies_patternSpec (ps.length + ss.length) ps ss le_rfl h,
      fun h => patternSpec_implies_match h⟩
  · intro pattern name
    rfl

theorem flw_afi_fold (recurF : String → List LargeRec)
    (recurA : String → List (String × LDItem)) (m : Rat) (p : String)
    (hrec : ∀ q, recurF q =
      ((recurA q).filter (fun x => decide ((x.2.size : Rat) ≥ m * (1024 * 1024)))).map
        mkLargeRec) :
    ∀ (l : List (String × EntryMeta)) (res : List LargeRec) (resA : List (String × LDItem)),
      res = (resA.filter (fun x => decide ((x.2.size : Rat) ≥ m * (1024 * 1024)))).map
        mkLargeRec →
      l.foldl (flwStep recurF m p) res =
        ((l.foldl (afiStep recurA p) resA).filter
          (fun x => decide ((x.2.size : Rat) ≥ m * (1024 * 1024)))).map mkLargeRec := by
  intro l
  induction l with
  | nil => intro res resA h; exact h
  | cons e rest ih =>
    intro res resA h
    simp only [List.foldl]
    apply ih
    unfold flwStep afiStep
    by_cases hf : (entryItem e.1 e.2).typ = "file"
    · rw [if_pos hf, if_pos hf, List.filter_append, List.map_append, ← h]
      by_cases hm : ((entryItem e.1 e.2).size : Rat) ≥ m * (1024 * 1024)
      · rw [if_pos hm]
        simp [List.filter, hm]
      · rw [if_neg hm]
        simp [List.filter, hm]
    · rw [if_neg hf, if_neg hf]
      by_cases hd : (entryItem e.1 e.2).typ = "dir"
      · rw [if_pos hd, if_pos hd, List.filter_append, List.map_append, ← h,
          hrec (joinP p e.1)]
      · rw [if_neg hd, if_neg hd]
        exact h

theorem flw_afi_rel (fs : Fs) (m : Rat) : ∀ (fuel : Nat) (p : String),
    flwAux fs m fuel p =
      ((afiAux fs fuel p).filter
        (fun x => decide ((x.2.size : Rat) ≥ m * (1024 * 1024)))).map mkLargeRec := by
  intro fuel
  induction fuel with
  | zero => intro p; rfl
  | succ fuel ih =>
    intro p
    simp only [flwAux, afiAux]
    cases hld : listDirRaw fs p with
    | mk valid items =>
      cases valid with
      | false => rfl
      | true => exact flw_afi_fold (flwAux fs m fuel) (afiAux fs fuel) m p ih items [] [] rfl

theorem mem_insDesc (x z : LargeRec) (l : List LargeRec) :
    z ∈ insDesc x l ↔ z = x ∨ z ∈ l := by
  induction l with
  | nil => simp [insDesc]
  | cons y ys ih =>
    by_cases h : x.size_bytes ≥ y.size_bytes
    · rw [insDesc, if_pos h]
      simp
    · rw [insDesc, if_neg h]
      simp [ih]
      tauto

theorem insDesc_sorted (x : LargeRec) (l : List LargeRec)
    (h : List.Sorted (fun a b => b.size_bytes ≤ a.size_bytes) l) :
    List.Sorted (fun a b => b.size_bytes ≤ a.size_bytes) (insDesc x l) := by
  induction l with
  | nil => simp [insDesc]
  | cons y ys ih =>
    rw [List.sorted_cons] at h
    by_cases hc : x.size_bytes ≥ y.size_bytes
    · rw [insDesc, if_pos hc, List.sorted_cons]
      refine ⟨?_, List.sorted_cons.mpr h⟩
      intro b hb
      rcases List.mem_cons.mp hb with rfl | hb
      · exact hc
      · exact le_trans (h.1 b hb) hc
    · rw [insDesc, if_neg hc, List.sorted_cons]
      refine ⟨?_, ih h.2⟩
      intro b hb
      rcases (mem_insDesc x b ys).mp hb with rfl | hb
      · omega
      · exact h.1 b hb

theorem pySortDesc_sorted (l : List LargeRec) :
    List.Sorted (fun a b => b.size_bytes ≤ a.size_bytes) (pySortDesc l) := by
  induction l with
  | nil => simp [pySortDesc]
  | cons x xs ih => exact insDesc_sorted x _ ih

theorem mem_pySortDesc (z : LargeRec) (l : List LargeRec) :
    z ∈ pySortDesc l ↔ z ∈ l := by
  induction l with
  | nil => simp [pySortDesc]
  | cons x xs ih =>
    show z ∈ insDesc x (pySortDesc xs) ↔ _
    rw [mem_insDesc, ih]
    simp

theorem filter_insDesc_neg (p : LargeRec → Bool) (x : LargeRec) (l : List LargeRec)
    (hx : p x = false) : (insDesc x l).filter p = l.filter p := by
  induction l with
  | nil => simp [insDesc, hx]
  | cons y ys ih =>
    by_cases hc : x.size_bytes ≥ y.size_bytes
    · rw [insDesc, if_pos hc]
      simp [List.filter, hx]
    · rw [insDesc, if_neg hc]
      cases hpy : p y <;> simp [List.filter, hpy, ih]

theorem filter_insDesc_pos (p : LargeRec → Bool) (x : LargeRec) (l : List LargeRec)
    (hx : p x = true)
    (hgt : ∀ y : LargeRec, x.size_bytes < y.size_bytes → p y = false) :
    (insDesc x l).filter p = x :: l.filter p := by
  induction l with
  | nil => simp [insDesc, List.filter, hx]
  | cons y ys ih =>
    by_cases hc : x.size_bytes ≥ y.size_bytes
    · rw [insDesc, if_pos hc]
      simp [List.filter, hx]
    · rw [insDesc, if_neg hc]
      have hpy : p y = false := hgt y (by omega)
      simp [List.filter, hpy, ih]

theorem pySortDesc_filter_size (l : List LargeRec) (s : Nat) :
    (pySortDesc l).filter (fun r => r.size_bytes = s) =
      l.filter (fun r => r.size_bytes = s) := by
  induction l with
  | nil => rfl
  | cons x xs ih =>
    show (insDesc x (pySortDesc xs)).filter _ = _
    by_cases hx : x.size_bytes = s
    · rw [filter_insDesc_pos _ _ _ (by simp [hx])
        (fun y hy => by simp only [decide_eq_false_iff_not]; omega)]
      simp [List.filter, hx, ih]
    · rw [filter_insDesc_neg _ _ _ (by simp [hx])]
      simp [List.filter, hx, ih]

/-- C6 (amended).  `find_large_files_windows` returns records for exactly
the file-typed entries of the traversal whose size reaches
`min_size_mb * 1024 * 1024` bytes — threshold inclusive, and with symbolic
links included, since the search does not skip them (see the
counterexample) — sorted descending by `size_bytes` with ties kept in
discovery order (stable sort). -/
theorem find_large_files_windows_sorted_stable :
    (∀ (fs : Fs) (m : Rat) (p : String),
        flwAux fs m (fs.length + 1) p =
          ((allFileItems fs p).filter
            (fun x => decide ((x.2.size : Rat) ≥ m * (1024 * 1024)))).map mkLargeRec) ∧
    (∀ (fs : Fs) (m : Rat) (p : String) (r : LargeRec),
        r ∈ find_large_files_windows fs m p ↔ r ∈ flwAux fs m (fs.length + 1) p) ∧
    (∀ (fs : Fs) (m : Rat) (p : String),
        List.Sorted (fun a b => b.size_bytes ≤ a.size_bytes)
          (find_large_files_windows fs m p)) ∧
    (∀ (fs : Fs) (m : Rat) (p : String) (s : Nat),
        (find_large_files_windows fs m p).filter (fun r => r.size_bytes = s) =
          (flwAux fs m (fs.length + 1) p).filter (fun r => r.size_bytes = s)) := by
  refine ⟨?_, ?_, ?_, ?_⟩
  · intro fs m p
    exact flw_afi_rel fs m (fs.length + 1) p
  · intro fs m p r
    exact mem_pySortDesc r _
  · intro fs m p
    exact pySortDesc_sorted _
  · intro fs m p s
    exact pySortDesc_filter_size _ s

/-- C6 counterexample.  The claim restricts the results to non-symlink
files, but the search never tests `islink`: on a tree whose only file entry
is a symbolic link to a 2 MiB file, `find_large_files_windows 1` returns
that link's record, where the claim demands an empty result. -/
theorem find_large_includes_symlink_counterexample :
    fsRead exC6 "r" =
      DirRead.ok [("big.bin", ⟨true, EKind.file, some (2097152, "t"), none⟩)] ∧
    (find_large_files_windows exC6 1 "r").map (fun r => r.path) = ["r\\big.bin"] := by
  refine ⟨rfl, ?_⟩
  have hcmp : (((2097152 : Nat) : Rat)) ≥ (1 : Rat) * (1024 * 1024) := by norm_num
  simp [find_large_files_windows, flwAux, flwStep, pySortDesc, insDesc, mkLargeRec,
    listDirRaw, safe_windows_listdir, fsRead, exC6, sortByName, insByName, entryItem,
    joinP, hcmp]
  norm_num [pySortDesc, insDesc]

theorem itemsFiles_cons (name : String) (m : EntryMeta) (rest : List (String × EntryMeta)) :
    itemsFiles ((name, m) :: rest) =
      (if m.isLink then 0 else if m.kind = EKind.file then 1 else 0) + itemsFiles rest :=
  rfl

theorem itemsSize_cons (name : String) (m : EntryMeta) (rest : List (String × EntryMeta)) :
    itemsSize ((name, m) :: rest) =
      (if m.isLink then 0
       else if m.kind = EKind.file then
         (match m.stat with
          | some sm => sm.1
          | none => 0)
       else 0) + itemsSize rest :=
  rfl

theorem itemsTypeCount_cons (ext : String) (name : String) (m : EntryMeta)
    (rest : List (String × EntryMeta)) :
    itemsTypeCount ext ((name, m) :: rest) =
      (if m.isLink then 0
       else if m.kind = EKind.file then
         (match m.stat with
          | some _ => if extKeyRec name = ext then 1 else 0
          | none => 0)
       else 0) + itemsTypeCount ext rest :=
  rfl

theorem itemsTypeBytes_cons (ext : String) (name : String) (m : EntryMeta)
    (rest : List (String × EntryMeta)) :
    itemsTypeBytes ext ((name, m) :: rest) =
      (if m.isLink then 0
       else if m.kind = EKind.file then
         (match m.stat with
          | some sm => if extKeyRec name = ext then sm.1 else 0
          | none => 0)
       else 0) + itemsTypeBytes ext rest :=
  rfl

theorem itemsAttrBit_cons (bit : Nat) (name : String) (m : EntryMeta)
    (rest : List (String × EntryMeta)) :
    itemsAttrBit bit ((name, m) :: rest) =
      (if m.isLink then 0
       else if m.kind = EKind.file then
         (match m.stat with
          | some _ =>
            (match m.attrs with
             | some a => if a &&& bit ≠ 0 then 1 else 0
             | none => 0)
          | none => 0)
       else 0) + itemsAttrBit bit rest :=
  rfl

theorem sumBy_cons (g : RNode → Nat) (c : RNode) (cs : List RNode) :
    sumBy g (c :: cs) = g c + sumBy g cs := by
  simp [sumBy]

theorem colItems_spec (fs : Fs) (maxd : Nat) (base : String) (depth : Nat)
    (recur : String → List String → Except Unit (Option RNode × List String))
    (Hrec : ∀ q w r v2, recur q w = Except.ok (some r, v2) →
      InvTree fs maxd r ∧ r.depth = depth + 1) :
    ∀ (items : List (String × EntryMeta)) (acc : RNode) (vis : List String)
      (n : RNode) (v : List String),
      colItems recur maxd base depth items acc vis = Except.ok (n, v) →
      ∃ new : List RNode,
        n.path = acc.path ∧ n.depth = acc.depth ∧
        n.children = acc.children ++ new ∧
        (∀ c ∈ new, c.depth = depth + 1 ∧ c.depth ≤ maxd ∧ InvTree fs maxd c) ∧
        n.files = acc.files + itemsFiles items + sumBy (fun c => c.files) new ∧
        n.size = acc.size + itemsSize items + sumBy (fun c => c.size) new ∧
        (∀ ext, hcount n.types ext = hcount acc.types ext + itemsTypeCount ext items +
          sumBy (fun c => hcount c.types ext) new) ∧
        (∀ ext, hbytes n.types ext = hbytes acc.types ext + itemsTypeBytes ext items +
          sumBy (fun c => hbytes c.types ext) new) ∧
        n.attributes.1 = acc.attributes.1 + itemsAttrBit 2 items +
          sumBy (fun c => c.attributes.1) new ∧
        n.attributes.2.1 = acc.attributes.2.1 + itemsAttrBit 4 items +
          sumBy (fun c => c.attributes.2.1) new ∧
        n.attributes.2.2 = acc.attributes.2.2 + itemsAttrBit 1 items +
          sumBy (fun c => c.attributes.2.2) new := by
  intro items
  induction items with
  | nil =>
    intro acc vis n v h
    simp only [colItems, Except.ok.injEq, Prod.mk.injEq] at h
    obtain ⟨ha, hv⟩ := h
    subst ha
    exact ⟨[], rfl, rfl, by simp, by simp,
      by simp [itemsFiles, sumBy], by simp [itemsSize, sumBy],
      by intro ext; simp [itemsTypeCount, sumBy],
      by intro ext; simp [itemsTypeBytes, sumBy],
      by simp [itemsAttrBit, sumBy], by simp [itemsAttrBit, sumBy],
      by simp [itemsAttrBit, sumBy]⟩
  | cons e rest ih =>
    intro acc vis n v h
    obtain ⟨name, m⟩ := e
    simp only [colItems] at h
    by_cases hl : m.isLink = true
    · rw [if_pos hl] at h
      obtain ⟨new, h1, h2, h3, h4, h5, h6, h7, h8, h9, h10, h11⟩ := ih acc vis n v h
      refine ⟨new, h1, h2, h3, h4, ?_, ?_, ?_, ?_, ?_, ?_, ?_⟩
      · rw [itemsFiles_cons]; simp only [hl, if_true]; omega
      · rw [itemsSize_cons]; simp only [hl, if_true]; omega
      · intro ext
        have := h7 ext
        rw [itemsTypeCount_cons]; simp only [hl, if_true]; omega
      · intro ext
        have := h8 ext
        rw [itemsTypeBytes_cons]; simp only [hl, if_true]; omega
      · rw [itemsAttrBit_cons]; simp only [hl, if_true]; omega
      · rw [itemsAttrBit_cons]; simp only [hl, if_true]; omega
      · rw [itemsAttrBit_cons]; simp only [hl, if_true]; omega
    · rw [if_neg hl] at h
      have hlf : m.isLink = false := by
        cases hb : m.isLink
        · rfl
        · exact absurd hb hl
      by_cases hkf : m.kind = EKind.file
      · rw [if_pos hkf] at h
        cases hst : m.stat with
        | none =>
          simp only [hst] at h
          obtain ⟨new, h1, h2, h3, h4, h5, h6, h7, h8, h9, h10, h11⟩ :=
            ih { acc with files := acc.files + 1 } vis n v h
          dsimp only at h1 h2 h3 h5 h6 h9 h10 h11
          refine ⟨new, h1, h2, h3, h4, ?_, ?_, ?_, ?_, ?_, ?_, ?_⟩
          · rw [itemsFiles_cons]; simp only [hlf, hkf, if_pos, Bool.false_eq_true,
              if_false, if_true]; omega
          · rw [itemsSize_cons]; simp only [hlf, hkf, hst, Bool.false_eq_true,
              if_false, if_true]; omega
          · intro ext
            have := h7 ext
            dsimp only at this
            rw [itemsTypeCount_cons]; simp only [hlf, hkf, hst, Bool.false_eq_true,
              if_false, if_true]; omega
          · intro ext
            have := h8 ext
            dsimp only at this
            rw [itemsTypeBytes_cons]; simp only [hlf, hkf, hst, Bool.false_eq_true,
              if_false, if_true]; omega
          · rw [itemsAttrBit_cons]; simp only [hlf, hkf, hst, Bool.false_eq_true,
              if_false, if_true]; omega
          · rw [itemsAttrBit_cons]; simp only [hlf, hkf, hst, Bool.false_eq_true,
              if_false, if_true]; omega
          · rw [itemsAttrBit_cons]; simp only [hlf, hkf, hst, Bool.false_eq_true,
              if_false, if_true]; omega
        | some sm =>
          simp only [hst] at h
          cases hat : m.attrs with
          | none =>
            simp only [hat] at h
            obtain ⟨new, h1, h2, h3, h4, h5, h6, h7, h8, h9, h10, h11⟩ :=
              ih { acc with
                    files := acc.files + 1
                    size := acc.size + sm.1
                    types := hadd acc.types (extKeyRec name) 1 sm.1 } vis n v h
            dsimp only at h1 h2 h3 h5 h6 h9 h10 h11
            refine ⟨new, h1, h2, h3, h4, ?_, ?_, ?_, ?_, ?_, ?_, ?_⟩
            · rw [itemsFiles_cons]; simp only [hlf, hkf, Bool.false_eq_true,
                if_false, if_true]; omega
            · rw [itemsSize_cons]; simp only [hlf, hkf, hst, Bool.false_eq_true,
                if_false, if_true]; omega
            · intro ext
              have hthis := h7 ext
              dsimp only at hthis
              rw [hcount_hadd] at hthis
              rw [itemsTypeCount_cons]; simp only [hlf, hkf, hst, Bool.false_eq_true,
                if_false, if_true]; omega
            · intro ext
              have hthis := h8 ext
              dsimp only at hthis
              rw [hbytes_hadd] at hthis
              rw [itemsTypeBytes_cons]; simp only [hlf, hkf, hst, hat,
                Bool.false_eq_true, if_false, if_true]; omega
            · rw [itemsAttrBit_cons]; simp only [hlf, hkf, hst, hat,
                Bool.false_eq_true, if_false, if_true]; omega
            · rw [itemsAttrBit_cons]; simp only [hlf, hkf, hst, hat,
                Bool.false_eq_true, if_false, if_true]; omega
            · rw [itemsAttrBit_cons]; simp only [hlf, hkf, hst, hat,
                Bool.false_eq_true, if_false, if_true]; omega
          | some a =>
            simp only [hat] at h
            obtain ⟨new, h1, h2, h3, h4, h5, h6, h7, h8, h9, h10, h11⟩ :=
              ih { acc with
                    files := acc.files + 1
                    size := acc.size + sm.1
                    types := hadd acc.types (extKeyRec name) 1 sm.1
                    attributes := attrAdd acc.attributes a } vis n v h
            dsimp only at h1 h2 h3 h5 h6 h9 h10 h11
            refine ⟨new, h1, h2, h3, h4, ?_, ?_, ?_, ?_, ?_, ?_, ?_⟩
            · rw [itemsFiles_cons]; simp only [hlf, hkf, Bool.false_eq_true,
                if_false, if_true]; omega
            · rw [itemsSize_cons]; simp only [hlf, hkf, hst, Bool.false_eq_true,
                if_false, if_true]; omega
            · intro ext
              have hthis := h7 ext
              dsimp only at hthis
              rw [hcount_hadd] at hthis
              rw [itemsTypeCount_cons]; simp only [hlf, hkf, hst, Bool.false_eq_true,
                if_false, if_true]; omega
            · intro ext
              have hthis := h8 ext
              dsimp only at hthis
              rw [hbytes_hadd] at hthis
              rw [itemsTypeBytes_cons]; simp only [hlf, hkf, hst, Bool.false_eq_true,
                if_false, if_true]; omega
            · rw [itemsAttrBit_cons]
              simp only [attrAdd] at h9
              simp only [hlf, hkf, hst, hat, Bool.false_eq_true, if_false, if_true]
              omega
            · rw [itemsAttrBit_cons]
              simp only [attrAdd] at h10
              simp only [hlf, hkf, hst, hat, Bool.false_eq_true, if_false, if_true]
              omega
            · rw [itemsAttrBit_cons]
              simp only [attrAdd] at h11
              simp only [hlf, hkf, hst, hat, Bool.false_eq_true, if_false, if_true]
              omega
      · rw [if_neg hkf] at h
        by_cases hkd : m.kind = EKind.dir
        · rw [if_pos hkd] at h
          by_cases hdm : depth < maxd
          · rw [if_pos hdm] at h
            cases heq : recur (joinP base name) vis with
            | error e2 => simp [heq] at h
            | ok pr =>
              obtain ⟨oc, vis2⟩ := pr
              cases oc with
              | none =>
                simp only [heq] at h
                obtain ⟨new, h1, h2, h3, h4, h5, h6, h7, h8, h9, h10, h11⟩ :=
                  ih { acc with dirs := acc.dirs + 1 } vis2 n v h
                dsimp only at h1 h2 h3 h5 h6 h9 h10 h11
                refine ⟨new, h1, h2, h3, h4, ?_, ?_, ?_, ?_, ?_, ?_, ?_⟩
                · rw [itemsFiles_cons]; simp [hlf, hkf, hkd]; omega
                · rw [itemsSize_cons]; simp [hlf, hkf, hkd]; omega
                · intro ext
                  have := h7 ext
                  dsimp only at this
                  rw [itemsTypeCount_cons]; simp [hlf, hkf, hkd]; omega
                · intro ext
                  have := h8 ext
                  dsimp only at this
                  rw [itemsTypeBytes_cons]; simp [hlf, hkf, hkd]; omega
                · rw [itemsAttrBit_cons]; simp [hlf, hkf, hkd]; omega
                · rw [itemsAttrBit_cons]; simp [hlf, hkf, hkd]; omega
                · rw [itemsAttrBit_cons]; simp [hlf, hkf, hkd]; omega
              | some c =>
                simp only [heq] at h
                obtain ⟨hcInv, hcDepth⟩ := Hrec (joinP base name) vis c vis2 heq
                obtain ⟨new2, h1, h2, h3, h4, h5, h6, h7, h8, h9, h10, h11⟩ :=
                  ih { acc with
                        files := acc.files + c.files
                        dirs := acc.dirs + 1 + c.dirs
                        size := acc.size + c.size
                        types := hmergeList acc.types c.types
                        attributes := attrMerge acc.attributes c.attributes
                        children := acc.children ++ [c] } vis2 n v h
                dsimp only at h1 h2 h3 h5 h6 h9 h10 h11
                refine ⟨c :: new2, h1, h2, ?_, ?_, ?_, ?_, ?_, ?_, ?_, ?_, ?_⟩
                · rw [h3]
                  simp
                · intro x hx
                  rcases List.mem_cons.mp hx with rfl | hx
                  · exact ⟨hcDepth, by omega, hcInv⟩
                  · exact h4 x hx
                · rw [itemsFiles_cons, sumBy_cons]
                  simp [hlf, hkf, hkd]
                  omega
                · rw [itemsSize_cons, sumBy_cons]
                  simp [hlf, hkf, hkd]
                  omega
                · intro ext
                  have hthis := h7 ext
                  dsimp only at hthis
                  rw [hcount_hmerge] at hthis
                  rw [itemsTypeCount_cons, sumBy_cons]
                  simp [hlf, hkf, hkd]
                  omega
                · intro ext
                  have hthis := h8 ext
                  dsimp only at hthis
                  rw [hbytes_hmerge] at hthis
                  rw [itemsTypeBytes_cons, sumBy_cons]
                  simp [hlf, hkf, hkd]
                  omega
                · rw [itemsAttrBit_cons, sumBy_cons]
                  simp only [attrMerge] at h9
                  simp [hlf, hkf, hkd]
                  omega
                · rw [itemsAttrBit_cons, sumBy_cons]
                  simp only [attrMerge] at h10
                  simp [hlf, hkf, hkd]
                  omega
                · rw [itemsAttrBit_cons, sumBy_cons]
                  simp only [attrMerge] at h11
                  simp [hlf, hkf, hkd]
                  omega
          · rw [if_neg hdm] at h
            obtain ⟨new, h1, h2, h3, h4, h5, h6, h7, h8, h9, h10, h11⟩ :=
              ih { acc with dirs := acc.dirs + 1 } vis n v h
            dsimp only at h1 h2 h3 h5 h6 h9 h10 h11
            refine ⟨new, h1, h2, h3, h4, ?_, ?_, ?_, ?_, ?_, ?_, ?_⟩
            · rw [itemsFiles_cons]; simp [hlf, hkf, hkd]; omega
            · rw [itemsSize_cons]; simp [hlf, hkf, hkd]; omega
            · intro ext
              have := h7 ext
              dsimp only at this
              rw [itemsTypeCount_cons]; simp [hlf, hkf, hkd]; omega
            · intro ext
              have := h8 ext
              dsimp only at this
              rw [itemsTypeBytes_cons]; simp [hlf, hkf, hkd]; omega
            · rw [itemsAttrBit_cons]; simp [hlf, hkf, hkd]; omega
            · rw [itemsAttrBit_cons]; simp [hlf, hkf, hkd]; omega
            · rw [itemsAttrBit_cons]; simp [hlf, hkf, hkd]; omega
        · rw [if_neg hkd] at h
          obtain ⟨new, h1, h2, h3, h4, h5, h6, h7, h8, h9, h10, h11⟩ := ih acc vis n v h
          refine ⟨new, h1, h2, h3, h4, ?_, ?_, ?_, ?_, ?_, ?_, ?_⟩
          · rw [itemsFiles_cons]; simp [hlf, hkf, hkd]; omega
          · rw [itemsSize_cons]; simp [hlf, hkf, hkd]; omega
          · intro ext
            have := h7 ext
            rw [itemsTypeCount_cons]; simp [hlf, hkf, hkd]; omega
          · intro ext
            have := h8 ext
            rw [itemsTypeBytes_cons]; simp [hlf, hkf, hkd]; omega
          · rw [itemsAttrBit_cons]; simp [hlf, hkf, hkd]; omega
          · rw [itemsAttrBit_cons]; simp [hlf, hkf, hkd]; omega
          · rw [itemsAttrBit_cons]; simp [hlf, hkf, hkd]; omega

theorem colRec_spec (fs : Fs) (maxd : Nat) :
    ∀ (gas : Nat) (pathS : String) (depth : Nat) (vis : List String) (r : RNode)
      (v : List String),
      colRec fs maxd gas pathS depth vis = Except.ok (some r, v) →
      InvTree fs maxd r ∧ r.depth = depth := by
  intro gas
  induction gas with
  | zero =>
    intro pathS depth vis r v h
    simp [colRec] at h
  | succ gas ih =>
    intro pathS depth vis r v h
    simp only [colRec] at h
    by_cases hg : depth > maxd ∨ pathS ∈ vis
    · rw [if_pos hg] at h
      simp at h
    · rw [if_neg hg] at h
      have hdep : depth ≤ maxd := by
        have := not_or.mp hg
        omega
      cases hr : fsRead fs pathS with
      | ok items =>
        simp only [hr] at h
        cases hci : colItems (fun q w => colRec fs maxd gas q (depth + 1) w) maxd pathS
            depth items (zeroNode pathS depth) (pathS :: vis) with
        | error e2 => simp [hci] at h
        | ok pr =>
          obtain ⟨n2, v2⟩ := pr
          simp only [hci, Except.ok.injEq, Prod.mk.injEq, Option.some.injEq] at h
          obtain ⟨hn, hv⟩ := h
          subst hn
          obtain ⟨new, g1, g2, g3, g4, g5, g6, g7, g8, g9, g10, g11⟩ :=
            colItems_spec fs maxd pathS depth
              (fun q w => colRec fs maxd gas q (depth + 1) w)
              (fun q w rr vv heq => ih q (depth + 1) w rr vv heq)
              items (zeroNode pathS depth) (pathS :: vis) n2 v2 hci
          dsimp only [zeroNode] at g1 g2 g3 g5 g6 g7 g8 g9 g10 g11
          rw [List.nil_append] at g3
          refine ⟨InvTree.mk n2 ?_ ?_ ?_ ?_ ?_ ?_ ?_ ?_ ?_, g2⟩
          · rw [g5, g1, g3]
            simp only [ownOf, hr]
            omega
          · rw [g6, g1, g3]
            simp only [ownOf, hr]
            omega
          · intro ext
            have := g7 ext
            rw [g1, g3]
            simp only [ownOf, hr]
            simp only [hcount] at this ⊢
            simp at this
            omega
          · intro ext
            have := g8 ext
            rw [g1, g3]
            simp only [ownOf, hr]
            simp only [hbytes] at this ⊢
            simp at this
            omega
          · rw [g9, g1, g3]
            simp only [ownOf, hr]
            omega
          · rw [g10, g1, g3]
            simp only [ownOf, hr]
            omega
          · rw [g11, g1, g3]
            simp only [ownOf, hr]
            omega
          · intro c hc
            rw [g3] at hc
            obtain ⟨hd1, hd2, _⟩ := g4 c hc
            exact ⟨by omega, hd2⟩
          · intro c hc
            rw [g3] at hc
            exact (g4 c hc).2.2
      | permErr =>
        simp only [hr, Except.ok.injEq, Prod.mk.injEq, Option.some.injEq] at h
        obtain ⟨hz, hv⟩ := h
        subst hz
        refine ⟨InvTree.mk _ ?_ ?_ ?_ ?_ ?_ ?_ ?_ ?_ ?_, rfl⟩ <;>
          simp [zeroNode, ownOf, hr, sumBy, hcount, hbytes]
      | notFoundErr =>
        simp only [hr, Except.ok.injEq, Prod.mk.injEq, Option.some.injEq] at h
        obtain ⟨hz, hv⟩ := h
        subst hz
        refine ⟨InvTree.mk _ ?_ ?_ ?_ ?_ ?_ ?_ ?_ ?_ ?_, rfl⟩ <;>
          simp [zeroNode, ownOf, hr, sumBy, hcount, hbytes]
      | osErr =>
        simp only [hr, Except.ok.injEq, Prod.mk.injEq, Option.some.injEq] at h
        obtain ⟨hz, hv⟩ := h
        subst hz
        refine ⟨InvTree.mk _ ?_ ?_ ?_ ?_ ?_ ?_ ?_ ?_ ?_, rfl⟩ <;>
          simp [zeroNode, ownOf, hr, sumBy, hcount, hbytes]
      | excErr => simp [hr] at h

/-- C4.  Every node of the tree returned by
`collect_windows_metadata_recursive` satisfies the subtree-summary invariant
`InvTree`: its file count, byte total, per-extension histogram entries and
(hidden, system, readonly) counters equal the node's own immediate-file
contributions plus the recursively summed contributions of the nodes in its
`children` list, and every child sits exactly one level deeper, within the
depth limit.  A subdirectory excluded by the depth limit or the visited set
returns `None`, is not appended to `children`, and — since the equations are
exact — contributes nothing to any total. -/
theorem collect_subtree_invariant (fs : Fs) (pathS : String) (maxd : Nat) (n : RNode)
    (h : collect_windows_metadata_recursive fs pathS maxd = Except.ok n) :
    InvTree fs maxd n := by
  unfold collect_windows_metadata_recursive at h
  cases hcr : colRec fs maxd (maxd + 1) pathS 0 [] with
  | error e => simp [hcr] at h
  | ok pr =>
    obtain ⟨oc, v⟩ := pr
    cases oc with
    | some r =>
      rw [hcr] at h
      simp only [Except.ok.injEq] at h
      subst h
      exact (colRec_spec fs maxd (maxd + 1) pathS 0 [] r v hcr).1
    | none =>
      exfalso
      simp only [colRec] at hcr
      rw [if_neg (by simp)] at hcr
      cases hr : fsRead fs pathS with
      | ok items =>
        simp only [hr] at hcr
        cases hci : colItems (fun q w => colRec fs maxd maxd q 1 w) maxd pathS 0 items
            (zeroNode pathS 0) (pathS :: []) with
        | error e2 => simp [hci] at hcr
        | ok pr2 =>
          obtain ⟨n2, v2⟩ := pr2
          simp [hci] at hcr
      | permErr => simp [hr] at hcr
      | notFoundErr => simp [hr] at hcr
      | osErr => simp [hr] at hcr
      | excErr => simp [hr] at hcr

theorem collect_subtree_invariant_witness :
    InvTree exC4 10
      ⟨"w", 0, 2, 1, 10, [(".txt", 2, 10)], (1, 0, 1),
        [⟨"w\\d", 1, 1, 0, 6, [(".txt", 1, 6)], (0, 0, 0), []⟩]⟩ :=
  collect_subtree_invariant exC4 "w" 10
    ⟨"w", 0, 2, 1, 10, [(".txt", 2, 10)], (1, 0, 1),
      [⟨"w\\d", 1, 1, 0, 6, [(".txt", 1, 6)], (0, 0, 0), []⟩]⟩ rfl
